import Mathlib

/-!
Verification of the label-loading pipeline of `src/LabelLoader.js`.

The JavaScript source decodes a multi-image TIFF into per-plane byte
buffers, remaps raw mask codes per pixel, runs an iterative 3D
connected-component labeling pass over the whole grid, and hands the
labeled planes to a volume sink, reporting progress, cancellation and
errors through a per-session state.

The embedding below models the per-plane buffers `imgBufferArray[z]`
(indexed by `y*imgWidth + x`) as one flat byte list indexed by
`idx = z*(w*h) + y*w + x`, which is the concatenation of the planes in
order; machine bytes are `Nat` values (all stored values stay below 256,
overflow never occurs because the component counter aborts at 255).
-/

/-- Semantic voxel state `unlabeled` (source line 114). -/
def unlabeled : Nat := 0

/-- Semantic voxel state `background` (source line 114). -/
def background : Nat := 1

/-- Semantic voxel state `foreground` (source line 114). -/
def foreground : Nat := 2

/-- Transient seed sentinel `seedVal` (source line 114). -/
def seedVal : Nat := 255

/-- The per-pixel remap of source line 120:
`(val == 2) ? unlabeled : (val == 1) ? foreground : (val == 0) ? background : val`. -/
def remapVal (val : Nat) : Nat :=
  if val = 2 then unlabeled
  else if val = 1 then foreground
  else if val = 0 then background
  else val

/-- The remap loop of source lines 118-121: for `j` from `0` to `wh - 1`,
`arr[j] := remapVal arr[j]`, in place. -/
def remapPlane (wh : Nat) (arr : List Nat) : List Nat :=
  (List.range wh).foldl (fun a j => a.set j (remapVal (a.getD j 0))) arr

/-- A voxel coordinate `(x, y, z)`. -/
abbrev Coord := Nat × Nat × Nat

/-- Flat index of a coordinate: plane `z`, then row `y`, then column `x`;
mirrors `imgBufferArray[z][y*imgWidth + x]` of the source. -/
def idx (w h : Nat) (p : Coord) : Nat := p.2.2 * (w * h) + p.2.1 * w + p.1

/-- The coordinate is inside the `w × h × d` grid. -/
def inB (w h d : Nat) (p : Coord) : Prop := p.1 < w ∧ p.2.1 < h ∧ p.2.2 < d

instance (w h d : Nat) (p : Coord) : Decidable (inB w h d p) := by
  unfold inB; infer_instance

/-- Read a voxel byte (out-of-range reads return 0, never `foreground`). -/
def getVox (w h : Nat) (g : List Nat) (p : Coord) : Nat := g.getD (idx w h p) 0

/-- Write a voxel byte (out-of-range writes are dropped). -/
def setVox (w h : Nat) (g : List Nat) (p : Coord) (v : Nat) : List Nat :=
  g.set (idx w h p) v

/-- Number of `foreground` voxels of a grid. -/
def fgCount (g : List Nat) : Nat := g.countP (fun v => v == 2)

/-- State of the flood-fill loop: the grid, the worklist `seeds` of source
line 140, and a ghost log of every coordinate ever pushed. -/
structure St where
  g : List Nat
  wl : List Coord
  log : List Coord

/-- One candidate-neighbor test of source lines 160-180: if the voxel at `q`
equals `foreground`, push `q` and mark it `seedVal`. -/
def tryPush (w h : Nat) (st : St) (q : Coord) : St :=
  if getVox w h st.g q = 2 then
    { g := setVox w h st.g q 255, wl := q :: st.wl, log := st.log ++ [q] }
  else st

/-- Candidate x coordinates of the unrolled inner loop (source lines
160-180): `x-1` guarded by `x-1 ≥ 0`, `x` unguarded, `x+1` guarded by
`x+1 < w`. -/
def xCands (w x : Nat) : List Nat :=
  (if 1 ≤ x then [x - 1] else []) ++ [x] ++ (if x + 1 < w then [x + 1] else [])

/-- Candidate y coordinates of the `dy` loop (source lines 153-156): each
`y + dy` kept when `0 ≤ y + dy < h`. -/
def yCands (h y : Nat) : List Nat :=
  (if 1 ≤ y ∧ y - 1 < h then [y - 1] else []) ++ (if y < h then [y] else []) ++
    (if y + 1 < h then [y + 1] else [])

/-- Candidate z coordinates of the `dz` loop (source lines 148-151): each
`z + dz` kept when `0 ≤ z + dz < d`. -/
def zCands (d z : Nat) : List Nat :=
  (if 1 ≤ z ∧ z - 1 < d then [z - 1] else []) ++ (if z < d then [z] else []) ++
    (if z + 1 < d then [z + 1] else [])

/-- The in-bounds candidate neighbors of `p`, in the visit order of the
source: `dz` outermost, then `dy`, then the unrolled `x - 1, x, x + 1`. -/
def nbrList (w h d : Nat) (p : Coord) : List Coord :=
  (zCands d p.2.2).flatMap fun zp =>
    (yCands h p.2.1).flatMap fun yp =>
      (xCands w p.1).map fun xp => (xp, yp, zp)

/-- Push every coordinate of `L` in turn through `tryPush`. -/
def pushAll (w h : Nat) (L : List Coord) (st : St) : St := L.foldl (tryPush w h) st

/-- Process the neighborhood of a popped seed (source lines 148-182). -/
def seedNbrs (w h d : Nat) (p : Coord) (st : St) : St :=
  pushAll w h (nbrList w h d p) st

/-- The worklist loop of source lines 142-183: pop a seed, assign it the
current component id, seed its `foreground` neighbors.  The loop runs until
the worklist empties; `fuel` is a step bound shown sufficient below. -/
def fillGo (w h d comp : Nat) : Nat → St → St
  | 0, st => st
  | fuel + 1, st =>
    match st.wl with
    | [] => st
    | p :: rest =>
      let st1 : St := { g := setVox w h st.g p comp, wl := rest, log := st.log }
      fillGo w h d comp fuel (seedNbrs w h d p st1)

/-- Message of the ReferenceError thrown by source line 186: the file runs
under strict mode (line 2) and `tooManyComponents` is declared nowhere, so
the assignment `tooManyComponents = true` throws before line 187 runs. -/
def refErrorMsg : String := "tooManyComponents is not defined"

/-- The outer raster scan of source lines 132-194: positions are visited in
`z`-major, then `y`, then `x` order, i.e. in increasing flat index; an
unabsorbed `foreground` voxel is marked `seedVal`, flood-filled with the
current id, and then the id counter is incremented and checked against the
`seedVal` capacity ceiling. -/
def scanGo (w h d : Nat) : Nat → Nat → Nat → List Nat → Except String (List Nat × Nat)
  | 0, _, comp, g => .ok (g, comp)
  | rem + 1, pos, comp, g =>
    let p : Coord := (pos % w, pos % (w * h) / w, pos / (w * h))
    if getVox w h g p = 2 then
      let g1 := setVox w h g p 255
      let st := fillGo w h d comp (2 * fgCount g1 + 1) { g := g1, wl := [p], log := [p] }
      if 255 ≤ comp + 1 then .error refErrorMsg
      else scanGo w h d rem (pos + 1) (comp + 1) st.g
    else scanGo w h d rem (pos + 1) comp g

/-- The whole labeling pass (source lines 132-194): scan all `w*h*d`
positions starting from component id 3. -/
def scanRun (w h d : Nat) (g : List Nat) : Except String (List Nat × Nat) :=
  scanGo w h d (w * h * d) 0 3 g

/-! ## The load pipeline -/

/-- An input list item as classified by source line 56: a `File`, a
`FileSystemFileHandle`, or anything else. -/
inductive Handle where
  | file
  | fsFileHandle
  | other
deriving DecidableEq, BEq, Repr

/-- The decoded TIFF content: dimensions and bit depth taken from the first
IFD, and the raw per-frame pixel buffers. -/
structure Tiff where
  width : Nat
  height : Nat
  bpp : Nat
  frames : List (List Nat)

/-- Snapshot of the session fields visible to the completion callback at
the moment `SafeInvoke(this.loadCompleteCb, [this])` runs. -/
structure Snap where
  done : Bool
  errors : Option String
  warnings : Option String
  numLabelsFound : Nat
deriving DecidableEq, Repr

/-- Observable outcome of one load session: the final session fields, the
sequence of completion-callback invocations (with the snapshot each one
sees), the sequence of progress-callback invocations, whether the
asynchronous byte read was started, and what reached the volume sink. -/
structure LoadResult where
  done : Bool
  errors : Option String
  warnings : Option String
  numLabelsFound : Nat
  callbackLog : List Snap
  progressLog : List (Nat × Nat)
  readStarted : Bool
  gridAfterLabel : Option (List Nat)
  sinkGrid : Option (List Nat)
  sinkEnded : Bool
deriving DecidableEq, Repr

/-- Warning text of source line 50. -/
def emptyListMsg : String :=
  "LabelLoader: No files were loaded, because the supplied file list was empty."

/-- Error text of source line 58. -/
def invalidItemMsg : String := "LabelLoader: Invalid item in file list."

/-- Error text of source line 106. -/
def bppMsg : String := "LabelLoader: Only 8-bit images are supported."

/-- Error text of source line 187 (dead code: line 186 throws first). -/
def capacityMsg : String := "LabelLoader: Volume has too many connected components."

/-- Message of the TypeError thrown when `ifds` is empty and line 98 reads
`ifds[0]`. -/
def undefinedIfdMsg : String := "Cannot read properties of undefined"

/-- The per-frame decode-and-remap loop of source lines 115-129.
`cancelSched k` is the value of `this.cancelled` at suspension point `k`
(k = 0 is function entry, k = z+1 is the resumption after the await
of frame z); the flag can only change at suspension points because the host
is single threaded.  Progress is reported and the flag is checked only
when a progress callback was supplied (source line 124).  A cancelled
run returns the progress reported so far on the error side. -/
def remapLoop (wh numImgs : Nat) (hasProgress : Bool) (cancelSched : Nat → Bool) :
    List (List Nat) → Nat → List (List Nat) → List (Nat × Nat) →
    Except (List (Nat × Nat)) (List (List Nat) × List (Nat × Nat))
  | [], _, accP, accProg => .ok (accP.reverse, accProg.reverse)
  | f :: rest, z, accP, accProg =>
    let fr := remapPlane wh f
    if hasProgress then
      if cancelSched (z + 1) then .error ((z, numImgs) :: accProg).reverse
      else remapLoop wh numImgs hasProgress cancelSched rest (z + 1) (fr :: accP)
        ((z, numImgs) :: accProg)
    else remapLoop wh numImgs hasProgress cancelSched rest (z + 1) (fr :: accP) accProg

/-- The `_handleMultiImageTiff` handler (source lines 89-218): check the
cancellation flag on entry, decode, require bit depth 8, remap each frame
with per-frame progress/yield/cancellation, label the whole grid, then
hand the planes to the volume sink and invoke the completion callback. -/
def handleMultiImageTiff (tiff : Tiff) (hasProgress : Bool) (cancelSched : Nat → Bool)
    (volBeginErr : Option String) (prog0 : List (Nat × Nat)) : LoadResult :=
  if cancelSched 0 then
    { done := false, errors := none, warnings := none, numLabelsFound := 0,
      callbackLog := [], progressLog := prog0, readStarted := true,
      gridAfterLabel := none, sinkGrid := none, sinkEnded := false }
  else
    match tiff.frames with
    | [] =>
      { done := true, errors := some undefinedIfdMsg, warnings := none, numLabelsFound := 0,
        callbackLog := [⟨true, some undefinedIfdMsg, none, 0⟩], progressLog := prog0,
        readStarted := true, gridAfterLabel := none, sinkGrid := none, sinkEnded := false }
    | _ :: _ =>
      if tiff.bpp ≠ 8 then
        { done := true, errors := some bppMsg, warnings := none, numLabelsFound := 0,
          callbackLog := [⟨true, some bppMsg, none, 0⟩], progressLog := prog0,
          readStarted := true, gridAfterLabel := none, sinkGrid := none, sinkEnded := false }
      else
        let wh := tiff.width * tiff.height
        let numImgs := tiff.frames.length
        match remapLoop wh numImgs hasProgress cancelSched tiff.frames 0 [] [] with
        | .error prog =>
          { done := false, errors := none, warnings := none, numLabelsFound := 0,
            callbackLog := [], progressLog := prog0 ++ prog, readStarted := true,
            gridAfterLabel := none, sinkGrid := none, sinkEnded := false }
        | .ok (planes, prog) =>
          match scanRun tiff.width tiff.height numImgs planes.flatten with
          | .error msg =>
            { done := true, errors := some msg, warnings := none, numLabelsFound := 0,
              callbackLog := [⟨true, some msg, none, 0⟩], progressLog := prog0 ++ prog,
              readStarted := true, gridAfterLabel := none, sinkGrid := none,
              sinkEnded := false }
          | .ok (g1, compFinal) =>
            let nl := compFinal - 3
            match volBeginErr with
            | some e =>
              { done := true, errors := some e, warnings := none, numLabelsFound := nl,
                callbackLog := [⟨true, some e, none, nl⟩], progressLog := prog0 ++ prog,
                readStarted := true, gridAfterLabel := some g1, sinkGrid := none,
                sinkEnded := false }
            | none =>
              { done := true, errors := none, warnings := none, numLabelsFound := nl,
                callbackLog := [⟨true, none, none, nl⟩], progressLog := prog0 ++ prog,
                readStarted := true, gridAfterLabel := some g1, sinkGrid := some g1,
                sinkEnded := true }

/-- `loadImagesIntoVolume` (source lines 34-81): empty input completes with
a warning; an invalid item fails synchronously before any read; otherwise
the initial progress call reports `(0, fileList.length)`, the bytes of
the first item are read asynchronously and handled by `handleMultiImageTiff`. -/
def loadImagesIntoVolume (files : List Handle) (tiff : Tiff) (hasProgress : Bool)
    (cancelSched : Nat → Bool) (volBeginErr : Option String) : LoadResult :=
  if files.isEmpty then
    { done := true, errors := none, warnings := some emptyListMsg, numLabelsFound := 0,
      callbackLog := [⟨true, none, some emptyListMsg, 0⟩], progressLog := [],
      readStarted := false, gridAfterLabel := none, sinkGrid := none, sinkEnded := false }
  else if files.any (fun f => !(f == Handle.fsFileHandle) && !(f == Handle.file)) then
    { done := true, errors := some invalidItemMsg, warnings := none, numLabelsFound := 0,
      callbackLog := [⟨true, some invalidItemMsg, none, 0⟩], progressLog := [],
      readStarted := false, gridAfterLabel := none, sinkGrid := none, sinkEnded := false }
  else
    let prog0 : List (Nat × Nat) := if hasProgress then [(0, files.length)] else []
    handleMultiImageTiff tiff hasProgress cancelSched volBeginErr prog0
/-! ## Basic list and index lemmas -/

/-- The progress sequence of an uncancelled run with a progress callback:
`(0, fileCount)` from source line 63, then `(z, numImgs)` for each frame. -/
def progressFull (hp : Bool) (nFiles numImgs : Nat) : List (Nat × Nat) :=
  if hp then (0, nFiles) :: (List.range numImgs).map (fun z => (z, numImgs)) else []

/-- The tail of an uncancelled valid 8-bit session: label the remapped
grid, then either fail (labeling abort or sink refusal) or upload. -/
def labelAndUpload (tiff : Tiff) (prog : List (Nat × Nat)) (volBeginErr : Option String) :
    LoadResult :=
  match scanRun tiff.width tiff.height tiff.frames.length
      ((tiff.frames.map (remapPlane (tiff.width * tiff.height))).flatten) with
  | .error msg =>
    { done := true, errors := some msg, warnings := none, numLabelsFound := 0,
      callbackLog := [⟨true, some msg, none, 0⟩], progressLog := prog,
      readStarted := true, gridAfterLabel := none, sinkGrid := none, sinkEnded := false }
  | .ok (g1, compFinal) =>
    match volBeginErr with
    | some e =>
      { done := true, errors := some e, warnings := none, numLabelsFound := compFinal - 3,
        callbackLog := [⟨true, some e, none, compFinal - 3⟩], progressLog := prog,
        readStarted := true, gridAfterLabel := some g1, sinkGrid := none, sinkEnded := false }
    | none =>
      { done := true, errors := none, warnings := none, numLabelsFound := compFinal - 3,
        callbackLog := [⟨true, none, none, compFinal - 3⟩], progressLog := prog,
        readStarted := true, gridAfterLabel := some g1, sinkGrid := some g1,
        sinkEnded := true }

/-- Error text used by the C6 witness for a sink refusal. -/
def sinkErrMsg : String := "Volume rejected the dimensions."

/-- Invariant of the ghost push log: logged coordinates are never
`foreground` any more, and the log has no duplicates. -/
def LogInv (w h : Nat) (st : St) : Prop :=
  (∀ r ∈ st.log, getVox w h st.g r ≠ 2) ∧ st.log.Nodup

/-! ## Pointwise effect of the neighbor pass -/

/-- Two coordinates differ by at most one along an axis. -/
def axAdj (a b : Nat) : Prop := a ≤ b + 1 ∧ b ≤ a + 1

/-- `q` lies in the 3 by 3 by 3 box centered at `p` (the 27 offsets of the
source `dz, dy, dx` loops, including the center itself). -/
def touches (p q : Coord) : Prop :=
  axAdj p.1 q.1 ∧ axAdj p.2.1 q.2.1 ∧ axAdj p.2.2 q.2.2

instance (a b : Nat) : Decidable (axAdj a b) := by unfold axAdj; infer_instance

instance (p q : Coord) : Decidable (touches p q) := by unfold touches; infer_instance

/-! ## Flood-fill reachability -/

/-- Coordinates the worklist loop will label, described over the current
grid of the loop `g` and worklist `wl`: the worklist entries themselves plus
the closure through in-bounds `foreground` voxels of the 27-neighborhood. -/
inductive FillReach (w h d : Nat) (g : List Nat) (wl : List Coord) : Coord → Prop
  | base (p : Coord) (hp : p ∈ wl) : FillReach w h d g wl p
  | step (p q : Coord) (hp : FillReach w h d g wl p) (ht : touches p q)
      (hq : inB w h d q) (hv : getVox w h g q = 2) : FillReach w h d g wl q

/-- Invariant of the worklist: no duplicates, and every entry is an
in-bounds voxel currently marked with the seed sentinel. -/
def WlInv (w h d : Nat) (st : St) : Prop :=
  st.wl.Nodup ∧ ∀ r ∈ st.wl, inB w h d r ∧ getVox w h st.g r = 255

/-! ## Connected components of the foreground -/

/-- `p` is an in-bounds Foreground voxel of grid `g`. -/
def FG (w h d : Nat) (g : List Nat) (p : Coord) : Prop :=
  inB w h d p ∧ getVox w h g p = 2

/-- 26-adjacency: distinct coordinates of the common 3 by 3 by 3 box. -/
def Adj (p q : Coord) : Prop := touches p q ∧ p ≠ q

/-- Reachability inside the set `F` through 26-adjacent steps. -/
inductive Reach (F : Coord → Prop) : Coord → Coord → Prop
  | refl (p : Coord) (hp : F p) : Reach F p p
  | tail (p q r : Coord) (hpq : Reach F p q) (ha : Adj q r) (hr : F r) : Reach F p r

/-! ## The scan invariant and component correctness -/

/-- Voxel `q` was assigned id `n`: it is in bounds, was Foreground in the
labeler input `g0`, and holds `n` in the current grid `g1`. -/
def Lab (w h d : Nat) (g0 g1 : List Nat) (n : Nat) (q : Coord) : Prop :=
  inB w h d q ∧ getVox w h g0 q = 2 ∧ getVox w h g1 q = n

/-- `s` is the discovery seed of id `n`: a Foreground voxel whose connected
component (within the Foreground of `g0`) is exactly the set of voxels
assigned `n`, and whose scan index is least in that component. -/
def SeedFor (w h d : Nat) (g0 g1 : List Nat) (n : Nat) (s : Coord) : Prop :=
  FG w h d g0 s ∧ (∀ q, Lab w h d g0 g1 n q ↔ Reach (FG w h d g0) s q) ∧
    (∀ q, Reach (FG w h d g0) s q → idx w h s ≤ idx w h q)

/-- Invariant carried through the outer scan: positions before `pos` hold
no Foreground, voxels keep their input value until their component is
filled, and each id below `comp` labels exactly one component, discovered
in increasing scan order. -/
structure ScanInv (w h d : Nat) (g0 : List Nat) (pos comp : Nat) (g : List Nat) : Prop where
  len : g.length = w * h * d
  comp_lb : 3 ≤ comp
  comp_ub : comp < 255
  unlab : ∀ q : Coord, inB w h d q → getVox w h g0 q ≠ 2 →
    getVox w h g q = getVox w h g0 q
  fgpart : ∀ q : Coord, inB w h d q → getVox w h g0 q = 2 →
    getVox w h g q = 2 ∨ (3 ≤ getVox w h g q ∧ getVox w h g q < comp)
  ids : ∀ n, 3 ≤ n → n < comp → ∃ s, idx w h s < pos ∧ SeedFor w h d g0 g n s
  mins : ∀ n n' s s', 3 ≤ n → n < n' → n' < comp → SeedFor w h d g0 g n s →
    SeedFor w h d g0 g n' s' → idx w h s < idx w h s'
  prefixNoFg : ∀ q : Coord, inB w h d q → idx w h q < pos → getVox w h g q ≠ 2

theorem getD_of_len_le : ∀ (g : List Nat) (i : Nat), g.length ≤ i → g.getD i 0 = 0 := by
  intro g
  induction g with
  | nil => intro i _; cases i <;> rfl
  | cons a t ih =>
    intro i hi
    cases i with
    | zero => simp at hi
    | succ j => exact ih j (Nat.le_of_succ_le_succ hi)

theorem lt_length_of_getD_ne (g : List Nat) (i : Nat) (h : g.getD i 0 ≠ 0) :
    i < g.length := by
  by_contra hc
  exact h (getD_of_len_le g i (Nat.le_of_not_lt hc))

theorem getD_set_self : ∀ (g : List Nat) (i : Nat) (v : Nat), i < g.length →
    (g.set i v).getD i 0 = v := by
  intro g
  induction g with
  | nil => intro i v h; simp at h
  | cons a t ih =>
    intro i v h
    cases i with
    | zero => rfl
    | succ j => exact ih j v (Nat.lt_of_succ_lt_succ h)

theorem getD_set_ne : ∀ (g : List Nat) (i j : Nat) (v : Nat), i ≠ j →
    (g.set i v).getD j 0 = g.getD j 0 := by
  intro g
  induction g with
  | nil => intro i j v _; cases j <;> rfl
  | cons a t ih =>
    intro i j v hij
    cases i with
    | zero =>
      cases j with
      | zero => exact absurd rfl hij
      | succ j' => rfl
    | succ i' =>
      cases j with
      | zero => rfl
      | succ j' => exact ih i' j' v (fun he => hij (by rw [he]))

theorem fgCount_set_dec : ∀ (g : List Nat) (i : Nat) (v : Nat), g.getD i 0 = 2 → v ≠ 2 →
    fgCount (g.set i v) + 1 = fgCount g := by
  intro g
  induction g with
  | nil =>
    intro i v h _
    rw [getD_of_len_le [] i (Nat.zero_le i)] at h
    cases h
  | cons a t ih =>
    intro i v hold hv
    cases i with
    | zero =>
      simp only [List.getD_cons_zero] at hold
      subst hold
      have hv2 : (v == 2) = false := by simpa using hv
      show fgCount (v :: t) + 1 = fgCount (2 :: t)
      simp only [fgCount, List.countP_cons, hv2]
      norm_num
    | succ j =>
      simp only [List.getD_cons_succ] at hold
      have ihj := ih j v hold hv
      show fgCount (a :: t.set j v) + 1 = fgCount (a :: t)
      simp only [fgCount, List.countP_cons] at ihj ⊢
      omega

theorem fgCount_set_noninc : ∀ (g : List Nat) (i : Nat) (v : Nat), v ≠ 2 →
    fgCount (g.set i v) ≤ fgCount g := by
  intro g
  induction g with
  | nil => intro i v _; simp [fgCount]
  | cons a t ih =>
    intro i v hv
    cases i with
    | zero =>
      have hv2 : (v == 2) = false := by simpa using hv
      show fgCount (v :: t) ≤ fgCount (a :: t)
      simp only [fgCount, List.countP_cons, hv2]
      norm_num
    | succ j =>
      have ihj := ih j v hv
      show fgCount (a :: t.set j v) ≤ fgCount (a :: t)
      simp only [fgCount, List.countP_cons] at ihj ⊢
      omega

theorem idx_expand (w h : Nat) (p : Coord) :
    idx w h p = p.1 + w * (p.2.1 + h * p.2.2) := by
  unfold idx; ring

theorem idx_lt_of_inB {w h d : Nat} {p : Coord} (hp : inB w h d p) :
    idx w h p < w * h * d := by
  obtain ⟨hx, hy, hz⟩ := hp
  rw [idx_expand]
  calc p.1 + w * (p.2.1 + h * p.2.2) < w + w * (p.2.1 + h * p.2.2) := by omega
    _ = w * (1 + (p.2.1 + h * p.2.2)) := by ring
    _ ≤ w * (h + h * p.2.2) := by
        apply Nat.mul_le_mul_left
        omega
    _ = w * h * (1 + p.2.2) := by ring
    _ ≤ w * h * d := by
        apply Nat.mul_le_mul_left
        omega

theorem idx_inj {w h d : Nat} {p q : Coord} (hp : inB w h d p) (hq : inB w h d q)
    (he : idx w h p = idx w h q) : p = q := by
  obtain ⟨hx, hy, hz⟩ := hp
  obtain ⟨hx', hy', hz'⟩ := hq
  rw [idx_expand, idx_expand] at he
  have hw : 0 < w := by omega
  have h1 : p.1 = q.1 := by
    have e1 : (p.1 + w * (p.2.1 + h * p.2.2)) % w = p.1 % w := Nat.add_mul_mod_self_left _ _ _
    have e2 : (q.1 + w * (q.2.1 + h * q.2.2)) % w = q.1 % w := Nat.add_mul_mod_self_left _ _ _
    rw [Nat.mod_eq_of_lt hx] at e1
    rw [Nat.mod_eq_of_lt hx'] at e2
    rw [← e1, he, e2]
  have h2 : p.2.1 + h * p.2.2 = q.2.1 + h * q.2.2 := by
    have hww : w * (p.2.1 + h * p.2.2) = w * (q.2.1 + h * q.2.2) := by omega
    exact Nat.eq_of_mul_eq_mul_left hw hww
  have hh : 0 < h := by omega
  have h3 : p.2.1 = q.2.1 := by
    have e1 : (p.2.1 + h * p.2.2) % h = p.2.1 % h := Nat.add_mul_mod_self_left _ _ _
    have e2 : (q.2.1 + h * q.2.2) % h = q.2.1 % h := Nat.add_mul_mod_self_left _ _ _
    rw [Nat.mod_eq_of_lt hy] at e1
    rw [Nat.mod_eq_of_lt hy'] at e2
    rw [← e1, h2, e2]
  have h4 : p.2.2 = q.2.2 := by
    have hmm : h * p.2.2 = h * q.2.2 := by omega
    exact Nat.eq_of_mul_eq_mul_left hh hmm
  obtain ⟨px, py, pz⟩ := p
  obtain ⟨qx, qy, qz⟩ := q
  simp_all

theorem decode_inB {w h d pos : Nat} (hpos : pos < w * h * d) :
    inB w h d (pos % w, pos % (w * h) / w, pos / (w * h)) := by
  have hw : 0 < w := by
    rcases Nat.eq_zero_or_pos w with h0 | h1
    · subst h0; simp at hpos
    · exact h1
  have hh : 0 < h := by
    rcases Nat.eq_zero_or_pos h with h0 | h1
    · subst h0; simp at hpos
    · exact h1
  have hwh : 0 < w * h := Nat.mul_pos hw hh
  refine ⟨Nat.mod_lt _ hw, ?_, ?_⟩
  · show pos % (w * h) / w < h
    exact Nat.div_lt_of_lt_mul (Nat.mod_lt _ hwh)
  · show pos / (w * h) < d
    exact Nat.div_lt_of_lt_mul hpos

theorem decode_idx {w h d pos : Nat} (hpos : pos < w * h * d) :
    idx w h (pos % w, pos % (w * h) / w, pos / (w * h)) = pos := by
  rw [idx_expand]
  simp only
  have ha : w * (pos % (w * h) / w) + pos % (w * h) % w = pos % (w * h) :=
    Nat.div_add_mod (pos % (w * h)) w
  have hb : w * h * (pos / (w * h)) + pos % (w * h) = pos := Nat.div_add_mod pos (w * h)
  have e1 : pos % (w * h) % w = pos % w := Nat.mod_mod_of_dvd pos ⟨h, rfl⟩
  calc pos % w + w * (pos % (w * h) / w + h * (pos / (w * h)))
      = (w * (pos % (w * h) / w) + pos % w) + w * h * (pos / (w * h)) := by ring
    _ = (w * (pos % (w * h) / w) + pos % (w * h) % w) + w * h * (pos / (w * h)) := by
        rw [e1]
    _ = pos % (w * h) + w * h * (pos / (w * h)) := by rw [ha]
    _ = pos := by omega

theorem length_setVox (w h : Nat) (g : List Nat) (p : Coord) (v : Nat) :
    (setVox w h g p v).length = g.length := by
  unfold setVox; exact List.length_set g _ _

theorem getVox_setVox_self {w h d : Nat} {g : List Nat} {p : Coord} {v : Nat}
    (hp : inB w h d p) (hlen : g.length = w * h * d) :
    getVox w h (setVox w h g p v) p = v := by
  unfold getVox setVox
  exact getD_set_self g _ v (by rw [hlen]; exact idx_lt_of_inB hp)

theorem getVox_setVox_ne {w h d : Nat} {g : List Nat} {p q : Coord} {v : Nat}
    (hp : inB w h d p) (hq : inB w h d q) (hne : p ≠ q) :
    getVox w h (setVox w h g p v) q = getVox w h g q := by
  unfold getVox setVox
  exact getD_set_ne g _ _ v (fun he => hne (idx_inj hp hq he))
/-! ## The remap table and the per-frame remap loop -/

theorem remapPlane_succ (n : Nat) (arr : List Nat) :
    remapPlane (n + 1) arr =
      (remapPlane n arr).set n (remapVal ((remapPlane n arr).getD n 0)) := by
  unfold remapPlane
  rw [List.range_succ, List.foldl_append]
  rfl

theorem length_remapPlane (wh : Nat) (arr : List Nat) :
    (remapPlane wh arr).length = arr.length := by
  induction wh with
  | zero => rfl
  | succ n ih => rw [remapPlane_succ, List.length_set, ih]

theorem set_oob : ∀ (g : List Nat) (i : Nat) (v : Nat), g.length ≤ i → g.set i v = g := by
  intro g
  induction g with
  | nil => intro i v _; cases i <;> rfl
  | cons a t ih =>
    intro i v hi
    cases i with
    | zero => simp at hi
    | succ j =>
      show a :: t.set j v = a :: t
      rw [ih j v (Nat.le_of_succ_le_succ hi)]

theorem getD_remapPlane (wh : Nat) (arr : List Nat) (j : Nat) :
    (remapPlane wh arr).getD j 0 =
      if j < wh ∧ j < arr.length then remapVal (arr.getD j 0) else arr.getD j 0 := by
  induction wh with
  | zero =>
    have : ¬ (j < 0 ∧ j < arr.length) := by omega
    rw [if_neg this]
    rfl
  | succ n ih =>
    rw [remapPlane_succ]
    by_cases hj : j = n
    · subst hj
      by_cases hlen : j < arr.length
      · rw [getD_set_self _ _ _ (by rw [length_remapPlane]; exact hlen)]
        rw [ih, if_neg (by omega), if_pos ⟨by omega, hlen⟩]
      · rw [set_oob _ _ _ (by rw [length_remapPlane]; omega)]
        rw [ih, if_neg (by omega), if_neg (by omega)]
    · rw [getD_set_ne _ _ _ _ (fun he => hj he.symm), ih]
      by_cases hc : j < n ∧ j < arr.length
      · rw [if_pos hc, if_pos ⟨by omega, hc.2⟩]
      · rw [if_neg hc,
          if_neg (fun hcc : j < n + 1 ∧ j < arr.length =>
            hc ⟨by obtain ⟨h1, h2⟩ := hcc; omega, hcc.2⟩)]

theorem remapPlane_eq_map (wh : Nat) (arr : List Nat) (hlen : arr.length = wh) :
    remapPlane wh arr = arr.map remapVal := by
  have hl1 : (remapPlane wh arr).length = (arr.map remapVal).length := by
    rw [length_remapPlane, List.length_map]
  apply List.ext_getElem hl1
  intro i h1 h2
  have hi : i < arr.length := by rwa [List.length_map] at h2
  have e1 : (remapPlane wh arr)[i] = (remapPlane wh arr).getD i 0 :=
    (List.getD_eq_getElem _ _ h1).symm
  have e2 : (arr.map remapVal)[i] = remapVal arr[i] := List.getElem_map _
  rw [e1, e2, getD_remapPlane, if_pos ⟨by omega, hi⟩]
  rw [List.getD_eq_getElem _ _ hi]
/-- Claim C4: the per-pixel remap maps raw code 0 to 1 (Background), 1 to 2
(Foreground), 2 to 0 (Unlabeled), and leaves every other byte value
unchanged; it is a bijection on the set containing 0, 1 and 2 and the
identity elsewhere; the remap loop applies it exactly once to every pixel
of a frame buffer; and applying it twice is not the identity on raw codes
0, 1, 2. -/
theorem remap_table_spec :
    (remapVal 0 = 1 ∧ remapVal 1 = 2 ∧ remapVal 2 = 0) ∧
    (∀ v : Nat, 2 < v → remapVal v = v) ∧
    Set.BijOn remapVal ({0, 1, 2} : Set Nat) ({0, 1, 2} : Set Nat) ∧
    (∀ wh arr, arr.length = wh → remapPlane wh arr = arr.map remapVal) ∧
    (∀ v : Nat, v ≤ 2 → remapVal (remapVal v) ≠ v) := by
  refine ⟨⟨rfl, rfl, rfl⟩, ?_, ⟨?_, ?_, ?_⟩, remapPlane_eq_map, ?_⟩
  · intro v hv
    unfold remapVal unlabeled foreground background
    rw [if_neg (by omega), if_neg (by omega), if_neg (by omega)]
  · intro v hv
    rcases hv with h | h | h
    all_goals subst h
    all_goals simp [remapVal, unlabeled, background, foreground]
  · intro a ha b hb he
    rcases ha with h | h | h <;> rcases hb with h' | h' | h' <;> subst h <;> subst h' <;>
      first
        | rfl
        | (exfalso; simp [remapVal, unlabeled, background, foreground] at he)
  · intro v hv
    rcases hv with h | h | h
    all_goals subst h
    · exact ⟨2, by simp, rfl⟩
    · exact ⟨0, by simp, rfl⟩
    · exact ⟨1, by simp, rfl⟩
  · intro v hv
    interval_cases v <;> simp [remapVal, unlabeled, background, foreground]

/-- Witness for C4 at concrete inputs: the remap loop on the buffer
`[0, 1, 2, 7]` rewrites it to `[1, 2, 0, 7]`, and the double remap moves 1. -/
theorem remap_table_spec_witness :
    remapPlane 4 [0, 1, 2, 7] = [1, 2, 0, 7] ∧ remapVal 7 = 7 ∧
      remapVal (remapVal 1) ≠ 1 := by
  refine ⟨(remap_table_spec.2.2.2.1 4 [0, 1, 2, 7] rfl).trans (by decide),
    remap_table_spec.2.1 7 (by omega), remap_table_spec.2.2.2.2 1 (by omega)⟩
/-! ## Pipeline-level lemmas: validation, cancellation, progress -/

theorem remapLoop_cancels (wh numImgs : Nat) (cs : Nat → Bool) :
    ∀ (fs : List (List Nat)) (z0 : Nat) (accP : List (List Nat)) (accProg : List (Nat × Nat)),
    (∃ k, z0 ≤ k ∧ k < z0 + fs.length ∧ cs (k + 1) = true) →
    ∃ e, remapLoop wh numImgs true cs fs z0 accP accProg = .error e := by
  intro fs
  induction fs with
  | nil =>
    intro z0 accP accProg ⟨k, hk1, hk2, _⟩
    simp at hk2
    omega
  | cons f rest ih =>
    intro z0 accP accProg ⟨k, hk1, hk2, hk3⟩
    by_cases hc : cs (z0 + 1) = true
    · refine ⟨((z0, numImgs) :: accProg).reverse, ?_⟩
      simp only [remapLoop]
      rw [if_pos trivial, if_pos hc]
    · have hkz : k ≠ z0 := fun he => hc (he ▸ hk3)
      obtain ⟨e, he⟩ := ih (z0 + 1) (remapPlane wh f :: accP) ((z0, numImgs) :: accProg)
        ⟨k, by omega, by simp only [List.length_cons] at hk2 ⊢; omega, hk3⟩
      refine ⟨e, ?_⟩
      simp only [remapLoop]
      rw [if_pos trivial, if_neg hc]
      exact he

theorem remapLoop_noProgress (wh numImgs : Nat) (cs : Nat → Bool) :
    ∀ (fs : List (List Nat)) (z0 : Nat) (accP : List (List Nat)) (accProg : List (Nat × Nat)),
    remapLoop wh numImgs false cs fs z0 accP accProg =
      .ok (accP.reverse ++ fs.map (remapPlane wh), accProg.reverse) := by
  intro fs
  induction fs with
  | nil => intro z0 accP accProg; simp [remapLoop]
  | cons f rest ih =>
    intro z0 accP accProg
    show remapLoop wh numImgs false cs rest (z0 + 1) (remapPlane wh f :: accP) accProg = _
    rw [ih]
    simp

theorem remapLoop_progress_ok (wh numImgs : Nat) (cs : Nat → Bool) :
    ∀ (fs : List (List Nat)) (z0 : Nat) (accP : List (List Nat)) (accProg : List (Nat × Nat)),
    (∀ k, z0 ≤ k → k < z0 + fs.length → cs (k + 1) = false) →
    remapLoop wh numImgs true cs fs z0 accP accProg =
      .ok (accP.reverse ++ fs.map (remapPlane wh),
        accProg.reverse ++ (List.range' z0 fs.length).map (fun z => (z, numImgs))) := by
  intro fs
  induction fs with
  | nil => intro z0 accP accProg _; simp [remapLoop]
  | cons f rest ih =>
    intro z0 accP accProg hns
    have hc : cs (z0 + 1) = false := hns z0 (Nat.le_refl _)
      (by simp only [List.length_cons]; omega)
    show (if cs (z0 + 1) = true then _ else
      remapLoop wh numImgs true cs rest (z0 + 1) (remapPlane wh f :: accP)
        ((z0, numImgs) :: accProg)) = _
    rw [if_neg (by rw [hc]; exact Bool.false_ne_true)]
    rw [ih (z0 + 1) _ _ (fun k h1 h2 =>
      hns k (by omega) (by simp only [List.length_cons] at h2 ⊢; omega))]
    simp [List.range']
theorem valid_no_bad (files : List Handle)
    (hvalid : ∀ f ∈ files, f = Handle.file ∨ f = Handle.fsFileHandle) :
    files.any (fun f => !(f == Handle.fsFileHandle) && !(f == Handle.file)) = false := by
  rw [List.any_eq_false]
  intro f hf
  rcases hvalid f hf with h | h <;> subst h <;> decide

theorem isEmpty_false_of_ne (files : List Handle) (hne : files ≠ []) :
    files.isEmpty = false := by
  cases files with
  | nil => exact absurd rfl hne
  | cons a t => rfl

theorem pipeline_nominal (files : List Handle) (tiff : Tiff) (hp : Bool) (cs : Nat → Bool)
    (v : Option String) (hne : files ≠ [])
    (hvalid : ∀ f ∈ files, f = Handle.file ∨ f = Handle.fsFileHandle)
    (hc0 : cs 0 = false)
    (hcz : hp = true → ∀ z, z < tiff.frames.length → cs (z + 1) = false)
    (hfr : tiff.frames ≠ []) (hbpp : tiff.bpp = 8) :
    loadImagesIntoVolume files tiff hp cs v =
      labelAndUpload tiff (progressFull hp files.length tiff.frames.length) v := by
  obtain ⟨tw, th, tb, tf⟩ := tiff
  simp only at hcz hfr hbpp
  subst hbpp
  unfold loadImagesIntoVolume
  rw [isEmpty_false_of_ne files hne, valid_no_bad files hvalid]
  simp only [Bool.false_eq_true, if_false]
  unfold handleMultiImageTiff
  rw [hc0]
  simp only [Bool.false_eq_true, if_false]
  rcases tf with _ | ⟨f0, rest⟩
  · exact absurd rfl hfr
  · simp only
    rw [if_neg (by omega)]
    cases hp with
    | false =>
      rw [remapLoop_noProgress]
      simp only [List.reverse_nil, List.nil_append]
      unfold labelAndUpload progressFull
      simp only [Bool.false_eq_true, if_false]
      cases hscan : scanRun tw th (f0 :: rest).length ((List.map (remapPlane (tw * th)) (f0 :: rest)).flatten) with
      | error msg => simp
      | ok r =>
        obtain ⟨g1, compFinal⟩ := r
        cases v <;> simp
    | true =>
      rw [remapLoop_progress_ok _ _ _ _ _ _ _ (fun k _ hk2 => hcz rfl k (by omega))]
      simp only [List.reverse_nil, List.nil_append]
      unfold labelAndUpload progressFull
      simp only [if_true]
      rw [← List.range_eq_range']
      cases hscan : scanRun tw th (f0 :: rest).length ((List.map (remapPlane (tw * th)) (f0 :: rest)).flatten) with
      | error msg => simp
      | ok r =>
        obtain ⟨g1, compFinal⟩ := r
        cases v <;> simp
/-- Claim C9: for every input list containing at least one item that is
neither a File nor a FileSystemFileHandle, the load fails immediately and
synchronously: the session is marked done with a non-null error, the
completion callback is invoked exactly once with that error, and no
asynchronous byte read is ever started. -/
theorem invalid_item_sync_failure (files : List Handle) (tiff : Tiff) (hp : Bool)
    (cs : Nat → Bool) (v : Option String) (hbad : Handle.other ∈ files) :
    (loadImagesIntoVolume files tiff hp cs v).done = true ∧
    (loadImagesIntoVolume files tiff hp cs v).errors = some invalidItemMsg ∧
    (loadImagesIntoVolume files tiff hp cs v).callbackLog =
      [⟨true, some invalidItemMsg, none, 0⟩] ∧
    (loadImagesIntoVolume files tiff hp cs v).readStarted = false := by
  have hne : files.isEmpty = false := by
    cases files with
    | nil => cases hbad
    | cons a t => rfl
  have hany : files.any (fun f => !(f == Handle.fsFileHandle) && !(f == Handle.file)) = true := by
    rw [List.any_eq_true]
    exact ⟨Handle.other, hbad, rfl⟩
  unfold loadImagesIntoVolume
  rw [hne, hany]
  simp

/-- Witness for C9: a one-element list holding an unrecognized item. -/
theorem invalid_item_sync_failure_witness :
    (loadImagesIntoVolume [Handle.other] ⟨1, 1, 8, [[0]]⟩ false (fun _ => false) none).done
        = true ∧
    (loadImagesIntoVolume [Handle.other] ⟨1, 1, 8, [[0]]⟩ false (fun _ => false) none).errors
        = some invalidItemMsg ∧
    (loadImagesIntoVolume [Handle.other] ⟨1, 1, 8, [[0]]⟩ false (fun _ => false) none).callbackLog
        = [⟨true, some invalidItemMsg, none, 0⟩] ∧
    (loadImagesIntoVolume [Handle.other] ⟨1, 1, 8, [[0]]⟩ false (fun _ => false)
        none).readStarted = false :=
  invalid_item_sync_failure [Handle.other] ⟨1, 1, 8, [[0]]⟩ false (fun _ => false) none
    (List.mem_singleton.mpr rfl)

/-- Claim C2: if the cancellation flag is set at any suspension point
before the labeling phase begins (function entry, or the resumption after
the per-frame yield of some frame), the session returns without invoking
the completion callback.  The flag is only readable at those checkpoints
because the host is single threaded, so this covers every cancellation
that happens before labeling. -/
theorem cancels_suppress_completion (files : List Handle) (tiff : Tiff) (hp : Bool)
    (cs : Nat → Bool) (v : Option String) (hne : files ≠ [])
    (hvalid : ∀ f ∈ files, f = Handle.file ∨ f = Handle.fsFileHandle)
    (hcancel : cs 0 = true ∨
      (hp = true ∧ tiff.bpp = 8 ∧ ∃ z, z < tiff.frames.length ∧ cs (z + 1) = true)) :
    (loadImagesIntoVolume files tiff hp cs v).callbackLog = [] ∧
    (loadImagesIntoVolume files tiff hp cs v).done = false ∧
    (loadImagesIntoVolume files tiff hp cs v).errors = none := by
  obtain ⟨tw, th, tb, tf⟩ := tiff
  unfold loadImagesIntoVolume
  rw [isEmpty_false_of_ne files hne, valid_no_bad files hvalid]
  simp only [Bool.false_eq_true, if_false]
  unfold handleMultiImageTiff
  rcases hcancel with hc0 | ⟨hhp, hbpp, z, hz, hcz⟩
  · rw [hc0]
    simp
  · simp only at hhp hbpp hz hcz
    subst hhp
    subst hbpp
    cases hc0 : cs 0 with
    | true => simp
    | false =>
      simp only [Bool.false_eq_true, if_false]
      rcases tf with _ | ⟨f0, rest⟩
      · simp at hz
      · simp only
        rw [if_neg (by omega)]
        obtain ⟨e, he⟩ := remapLoop_cancels (tw * th) (f0 :: rest).length cs (f0 :: rest) 0 [] []
          ⟨z, Nat.zero_le z, by omega, hcz⟩
        rw [he]
        simp

/-- Witness for C2: cancellation set at entry suppresses the callback. -/
theorem cancels_suppress_completion_witness :
    (loadImagesIntoVolume [Handle.file] ⟨1, 1, 8, [[5]]⟩ true (fun _ => true) none).callbackLog
        = [] ∧
    (loadImagesIntoVolume [Handle.file] ⟨1, 1, 8, [[5]]⟩ true (fun _ => true) none).done
        = false ∧
    (loadImagesIntoVolume [Handle.file] ⟨1, 1, 8, [[5]]⟩ true (fun _ => true) none).errors
        = none :=
  cancels_suppress_completion [Handle.file] ⟨1, 1, 8, [[5]]⟩ true (fun _ => true) none
    (by simp) (by intro f hf; rw [List.mem_singleton] at hf; exact Or.inl hf) (Or.inl rfl)
theorem labelAndUpload_progressLog (tiff : Tiff) (prog : List (Nat × Nat))
    (v : Option String) : (labelAndUpload tiff prog v).progressLog = prog := by
  unfold labelAndUpload
  cases scanRun tiff.width tiff.height tiff.frames.length
      ((tiff.frames.map (remapPlane (tiff.width * tiff.height))).flatten) with
  | error msg => rfl
  | ok r =>
    obtain ⟨g1, c⟩ := r
    cases v <;> rfl

/-- Counterexample to claim C3 as stated.  The initial progress call of
source line 63 reports `(0, fileList.length)` while the per-frame calls of
source line 125 report `(z, numImgs)`.  For one input file decoding to one
frame, `(0, 1)` is reported twice, so `(0, total)` is not invoked exactly
once; for one input file decoding to two frames the totals are 1 and 2, so
the total is not the same in every invocation. -/
theorem progress_claim_counterexample :
    (loadImagesIntoVolume [Handle.file] ⟨1, 1, 8, [[0]]⟩ true (fun _ => false)
      none).progressLog = [(0, 1), (0, 1)] ∧
    (loadImagesIntoVolume [Handle.file] ⟨1, 1, 8, [[0]]⟩ true (fun _ => false)
      none).progressLog.count (0, 1) ≠ 1 ∧
    (loadImagesIntoVolume [Handle.file] ⟨1, 1, 8, [[0], [0]]⟩ true (fun _ => false)
      none).progressLog = [(0, 1), (0, 2), (1, 2)] := by
  decide

/-- Claim C3 as amended: for every non-empty valid load request with a
progress callback that is never cancelled, the progress callback is
invoked once with `(0, fileCount)` before decoding begins, then once after
each frame in the remap step with `(frameIndex, frameCount)`; the initial total
is the input file count while the per-frame total is the decoded frame
count, and these may differ. -/
theorem progress_log_nominal (files : List Handle) (tiff : Tiff) (cs : Nat → Bool)
    (v : Option String) (hne : files ≠ [])
    (hvalid : ∀ f ∈ files, f = Handle.file ∨ f = Handle.fsFileHandle)
    (hc0 : cs 0 = false) (hcz : ∀ z, z < tiff.frames.length → cs (z + 1) = false)
    (hfr : tiff.frames ≠ []) (hbpp : tiff.bpp = 8) :
    (loadImagesIntoVolume files tiff true cs v).progressLog =
      (0, files.length) ::
        (List.range tiff.frames.length).map (fun z => (z, tiff.frames.length)) := by
  rw [pipeline_nominal files tiff true cs v hne hvalid hc0 (fun _ => hcz) hfr hbpp]
  rw [labelAndUpload_progressLog]
  rfl

/-- Witness for the amended C3 at a concrete two-frame input. -/
theorem progress_log_nominal_witness :
    (loadImagesIntoVolume [Handle.file] ⟨2, 1, 8, [[0, 1], [1, 1]]⟩ true (fun _ => false)
      none).progressLog = [(0, 1), (0, 2), (1, 2)] :=
  (progress_log_nominal [Handle.file] ⟨2, 1, 8, [[0, 1], [1, 1]]⟩ (fun _ => false) none
    (by simp) (by intro f hf; rw [List.mem_singleton] at hf; exact Or.inl hf) rfl
    (fun z _ => rfl) (by simp) rfl).trans (by decide)
/-! ## The scan on grids without foreground -/

theorem scan_nofg (w h d : Nat) :
    ∀ (rem pos comp : Nat) (g : List Nat), pos + rem ≤ w * h * d →
    (∀ p : Coord, inB w h d p → getVox w h g p ≠ 2) →
    scanGo w h d rem pos comp g = .ok (g, comp) := by
  intro rem
  induction rem with
  | zero => intro pos comp g _ _; rfl
  | succ n ih =>
    intro pos comp g hle hfg
    have hpos : pos < w * h * d := by omega
    have hp : inB w h d (pos % w, pos % (w * h) / w, pos / (w * h)) := decode_inB hpos
    unfold scanGo
    rw [if_neg (hfg _ hp)]
    exact ih (pos + 1) comp g (by omega) hfg

/-- Claim C8: for every grid containing no voxel equal to Foreground (2),
the labeling pass leaves every voxel value unchanged and finishes with the
id counter still at 3, so the reported component count is 3 - 3 = 0. -/
theorem no_foreground_identity (w h d : Nat) (g : List Nat)
    (hfg : ∀ p : Coord, inB w h d p → getVox w h g p ≠ 2) :
    scanRun w h d g = .ok (g, 3) ∧ 3 - 3 = 0 := by
  refine ⟨?_, rfl⟩
  unfold scanRun
  exact scan_nofg w h d (w * h * d) 0 3 g (by omega) hfg

/-- Witness for C8: a 2 by 2 by 1 grid holding unlabeled, background, a
component id and the seed sentinel, but no foreground. -/
theorem no_foreground_identity_witness :
    scanRun 2 2 1 [0, 1, 3, 255] = .ok ([0, 1, 3, 255], 3) ∧ 3 - 3 = 0 :=
  no_foreground_identity 2 2 1 [0, 1, 3, 255] (by
    intro p hp
    obtain ⟨x, y, z⟩ := p
    obtain ⟨hx, hy, hz⟩ := hp
    interval_cases x <;> interval_cases y <;> interval_cases z <;> decide)
theorem labelAndUpload_indep (tiff : Tiff) (prog prog' : List (Nat × Nat))
    (v v' : Option String) :
    (labelAndUpload tiff prog v).gridAfterLabel =
      (labelAndUpload tiff prog' v').gridAfterLabel ∧
    (labelAndUpload tiff prog v).numLabelsFound =
      (labelAndUpload tiff prog' v').numLabelsFound := by
  unfold labelAndUpload
  cases scanRun tiff.width tiff.height tiff.frames.length
      ((tiff.frames.map (remapPlane (tiff.width * tiff.height))).flatten) with
  | error msg => exact ⟨rfl, rfl⟩
  | ok r =>
    obtain ⟨g1, c⟩ := r
    cases v <;> cases v' <;> exact ⟨rfl, rfl⟩

/-- Claim C6: the labeling pass is a deterministic function of the grid
contents alone.  Two sessions that decode the same frames produce the same
per-voxel component assignment (the labeled grid) and the same component
count, whatever their file lists, progress callbacks, cancellation
schedules (as long as neither run is cancelled) and sink behaviors are:
the fixed z, y, x scan order and fixed neighbor order leave no other input
to the labeler. -/
theorem labeling_deterministic_in_grid (files₁ files₂ : List Handle) (tiff : Tiff)
    (hp₁ hp₂ : Bool) (cs₁ cs₂ : Nat → Bool) (v₁ v₂ : Option String)
    (hne₁ : files₁ ≠ []) (hne₂ : files₂ ≠ [])
    (hvalid₁ : ∀ f ∈ files₁, f = Handle.file ∨ f = Handle.fsFileHandle)
    (hvalid₂ : ∀ f ∈ files₂, f = Handle.file ∨ f = Handle.fsFileHandle)
    (hc₁ : cs₁ 0 = false) (hc₂ : cs₂ 0 = false)
    (hcz₁ : hp₁ = true → ∀ z, z < tiff.frames.length → cs₁ (z + 1) = false)
    (hcz₂ : hp₂ = true → ∀ z, z < tiff.frames.length → cs₂ (z + 1) = false)
    (hfr : tiff.frames ≠ []) (hbpp : tiff.bpp = 8) :
    (loadImagesIntoVolume files₁ tiff hp₁ cs₁ v₁).gridAfterLabel =
      (loadImagesIntoVolume files₂ tiff hp₂ cs₂ v₂).gridAfterLabel ∧
    (loadImagesIntoVolume files₁ tiff hp₁ cs₁ v₁).numLabelsFound =
      (loadImagesIntoVolume files₂ tiff hp₂ cs₂ v₂).numLabelsFound := by
  rw [pipeline_nominal files₁ tiff hp₁ cs₁ v₁ hne₁ hvalid₁ hc₁ hcz₁ hfr hbpp]
  rw [pipeline_nominal files₂ tiff hp₂ cs₂ v₂ hne₂ hvalid₂ hc₂ hcz₂ hfr hbpp]
  exact labelAndUpload_indep tiff _ _ v₁ v₂

/-- Witness for C6: two sessions with different file lists, progress
callbacks, cancellation schedules and sink outcomes agree on the labeled
grid and the component count. -/
theorem labeling_deterministic_in_grid_witness :
    (loadImagesIntoVolume [Handle.file] ⟨1, 1, 8, [[1]]⟩ false (fun _ => false)
        none).gridAfterLabel =
      (loadImagesIntoVolume [Handle.file, Handle.fsFileHandle] ⟨1, 1, 8, [[1]]⟩ true
        (fun k => decide (2 ≤ k)) (some sinkErrMsg)).gridAfterLabel ∧
    (loadImagesIntoVolume [Handle.file] ⟨1, 1, 8, [[1]]⟩ false (fun _ => false)
        none).numLabelsFound =
      (loadImagesIntoVolume [Handle.file, Handle.fsFileHandle] ⟨1, 1, 8, [[1]]⟩ true
        (fun k => decide (2 ≤ k)) (some sinkErrMsg)).numLabelsFound :=
  labeling_deterministic_in_grid [Handle.file] [Handle.file, Handle.fsFileHandle]
    ⟨1, 1, 8, [[1]]⟩ false true (fun _ => false) (fun k => decide (2 ≤ k)) none
    (some sinkErrMsg) (by simp) (by simp)
    (by intro f hf; rw [List.mem_singleton] at hf; exact Or.inl hf)
    (by
      intro f hf
      simp only [List.mem_cons, List.mem_singleton, List.not_mem_nil, or_false] at hf
      rcases hf with h | h
      · exact Or.inl h
      · exact Or.inr h)
    rfl rfl
    (by intro _ z hz; simp at hz; subst hz; rfl)
    (by intro _ z hz; simp at hz; subst hz; rfl)
    (by simp) rfl
/-! ## Worklist invariants: termination fuel and single-push -/

theorem getD_set_cases (g : List Nat) (i j v : Nat) :
    (g.set i v).getD j 0 = v ∨ (g.set i v).getD j 0 = g.getD j 0 := by
  by_cases hij : i = j
  · subst hij
    by_cases hlt : i < g.length
    · exact Or.inl (getD_set_self g i v hlt)
    · rw [set_oob g i v (by omega)]
      exact Or.inr rfl
  · exact Or.inr (getD_set_ne g i j v hij)

theorem getVox_set_ne2 {w h : Nat} {g : List Nat} {q r : Coord} {v : Nat}
    (hr : getVox w h g r ≠ 2) (hv : v ≠ 2) :
    getVox w h (setVox w h g q v) r ≠ 2 := by
  unfold getVox setVox at *
  rcases getD_set_cases g (idx w h q) (idx w h r) v with hc | hc <;> rw [hc] <;> assumption

theorem tryPush_g_length (w h : Nat) (st : St) (q : Coord) :
    (tryPush w h st q).g.length = st.g.length := by
  unfold tryPush
  split
  · exact List.length_set st.g _ _
  · rfl

theorem pushAll_g_length (w h : Nat) :
    ∀ (L : List Coord) (st : St), (pushAll w h L st).g.length = st.g.length := by
  intro L
  induction L with
  | nil => intro st; rfl
  | cons q L ih =>
    intro st
    show (pushAll w h L (tryPush w h st q)).g.length = st.g.length
    rw [ih, tryPush_g_length]

theorem tryPush_measure (w h : Nat) (st : St) (q : Coord) :
    2 * fgCount (tryPush w h st q).g + (tryPush w h st q).wl.length ≤
      2 * fgCount st.g + st.wl.length := by
  unfold tryPush
  split
  · next hc =>
    have hdec : fgCount (setVox w h st.g q 255) + 1 = fgCount st.g :=
      fgCount_set_dec st.g (idx w h q) 255 hc (by omega)
    simp only [List.length_cons]
    omega
  · exact Nat.le_refl _

theorem pushAll_measure (w h : Nat) :
    ∀ (L : List Coord) (st : St),
    2 * fgCount (pushAll w h L st).g + (pushAll w h L st).wl.length ≤
      2 * fgCount st.g + st.wl.length := by
  intro L
  induction L with
  | nil => intro st; exact Nat.le_refl _
  | cons q L ih =>
    intro st
    exact Nat.le_trans (ih (tryPush w h st q)) (tryPush_measure w h st q)

theorem tryPush_loginv (w h : Nat) (st : St) (q : Coord) (hi : LogInv w h st) :
    LogInv w h (tryPush w h st q) := by
  obtain ⟨hval, hnd⟩ := hi
  unfold tryPush
  split
  · next hc =>
    constructor
    · intro r hr
      rw [List.mem_append, List.mem_singleton] at hr
      rcases hr with hr | hr
      · exact getVox_set_ne2 (hval r hr) (by omega)
      · subst hr
        have hin : idx w h r < st.g.length :=
          lt_length_of_getD_ne st.g (idx w h r) (by unfold getVox at hc; omega)
        unfold getVox setVox
        rw [getD_set_self st.g (idx w h r) 255 hin]
        omega
    · rw [List.nodup_append]
      refine ⟨hnd, List.nodup_singleton q, ?_⟩
      intro r hr hq
      rw [List.mem_singleton] at hq
      subst hq
      exact hval r hr hc
  · exact ⟨hval, hnd⟩

theorem pushAll_loginv (w h : Nat) :
    ∀ (L : List Coord) (st : St), LogInv w h st → LogInv w h (pushAll w h L st) := by
  intro L
  induction L with
  | nil => intro st hi; exact hi
  | cons q L ih =>
    intro st hi
    exact ih (tryPush w h st q) (tryPush_loginv w h st q hi)

theorem fillGo_inv (w h d comp : Nat) (hcomp : comp ≠ 2) :
    ∀ (fuel : Nat) (st : St),
    2 * fgCount st.g + st.wl.length ≤ fuel → LogInv w h st →
    (fillGo w h d comp fuel st).wl = [] ∧ LogInv w h (fillGo w h d comp fuel st) := by
  intro fuel
  induction fuel with
  | zero =>
    intro st hm hl
    have : st.wl.length = 0 := by omega
    exact ⟨List.length_eq_zero.mp this, hl⟩
  | succ fuel ih =>
    intro st hm hl
    obtain ⟨g0, wl0, log0⟩ := st
    cases wl0 with
    | nil => exact ⟨rfl, hl⟩
    | cons p rest =>
      have hred : fillGo w h d comp (fuel + 1) ⟨g0, p :: rest, log0⟩ =
          fillGo w h d comp fuel (seedNbrs w h d p ⟨setVox w h g0 p comp, rest, log0⟩) := rfl
      rw [hred]
      have hst1g : fgCount (setVox w h g0 p comp) ≤ fgCount g0 :=
        fgCount_set_noninc g0 (idx w h p) comp hcomp
      have hm1 : 2 * fgCount (setVox w h g0 p comp) + rest.length ≤ fuel := by
        simp only [List.length_cons] at hm
        omega
      have hl1 : LogInv w h ⟨setVox w h g0 p comp, rest, log0⟩ := by
        constructor
        · intro r hr
          exact getVox_set_ne2 (hl.1 r hr) hcomp
        · exact hl.2
      have hm2 := Nat.le_trans
        (pushAll_measure w h (nbrList w h d p) ⟨setVox w h g0 p comp, rest, log0⟩) hm1
      exact ih (seedNbrs w h d p ⟨setVox w h g0 p comp, rest, log0⟩) hm2
        (pushAll_loginv w h (nbrList w h d p) _ hl1)

/-- Claim C10: starting a flood fill from a freshly seeded foreground
voxel, every grid coordinate is pushed at most once (the push log has no
duplicates: a coordinate is only pushed while it equals Foreground and it
is set to the Seed sentinel 255 at push time, never to return to
Foreground), and within the fuel bound `2 * foregroundCount + 1` the
worklist loop reaches the empty worklist, so the loop terminates with an
empty worklist on every finite grid. -/
theorem worklist_once_terminates (w h d comp : Nat) (g : List Nat) (p : Coord)
    (hcomp : comp ≠ 2) (hseed : getVox w h g p = 2) :
    (fillGo w h d comp (2 * fgCount (setVox w h g p 255) + 1)
        ⟨setVox w h g p 255, [p], [p]⟩).wl = [] ∧
    (fillGo w h d comp (2 * fgCount (setVox w h g p 255) + 1)
        ⟨setVox w h g p 255, [p], [p]⟩).log.Nodup := by
  have hin : idx w h p < g.length :=
    lt_length_of_getD_ne g (idx w h p) (by unfold getVox at hseed; omega)
  have hl : LogInv w h ⟨setVox w h g p 255, [p], [p]⟩ := by
    constructor
    · intro r hr
      rw [List.mem_singleton] at hr
      subst hr
      unfold getVox setVox
      rw [getD_set_self g (idx w h r) 255 hin]
      omega
    · exact List.nodup_singleton p
  have := fillGo_inv w h d comp hcomp (2 * fgCount (setVox w h g p 255) + 1)
    ⟨setVox w h g p 255, [p], [p]⟩ (by simp) hl
  exact ⟨this.1, this.2.2⟩

/-- Witness for C10 on a one-voxel grid. -/
theorem worklist_once_terminates_witness :
    (fillGo 1 1 1 3 (2 * fgCount (setVox 1 1 [2] (0, 0, 0) 255) + 1)
        ⟨setVox 1 1 [2] (0, 0, 0) 255, [(0, 0, 0)], [(0, 0, 0)]⟩).wl = [] ∧
    (fillGo 1 1 1 3 (2 * fgCount (setVox 1 1 [2] (0, 0, 0) 255) + 1)
        ⟨setVox 1 1 [2] (0, 0, 0) 255, [(0, 0, 0)], [(0, 0, 0)]⟩).log.Nodup :=
  worklist_once_terminates 1 1 1 3 [2] (0, 0, 0) (by omega) rfl
theorem mem_xCands {w x a : Nat} (hx : x < w) : a ∈ xCands w x ↔ axAdj x a ∧ a < w := by
  unfold xCands axAdj
  by_cases h1 : 1 ≤ x <;> by_cases h2 : x + 1 < w <;>
    simp [h1, h2, List.mem_append, List.mem_singleton] <;> omega

theorem mem_yCands {h y a : Nat} (hy : y < h) : a ∈ yCands h y ↔ axAdj y a ∧ a < h := by
  unfold yCands axAdj
  by_cases h1 : 1 ≤ y ∧ y - 1 < h <;> by_cases h2 : y + 1 < h <;>
    simp [h1, h2, hy, List.mem_append, List.mem_singleton] <;> omega

theorem mem_zCands {d z a : Nat} (hz : z < d) : a ∈ zCands d z ↔ axAdj z a ∧ a < d := by
  unfold zCands axAdj
  by_cases h1 : 1 ≤ z ∧ z - 1 < d <;> by_cases h2 : z + 1 < d <;>
    simp [h1, h2, hz, List.mem_append, List.mem_singleton] <;> omega

theorem mem_nbrList {w h d : Nat} {p q : Coord} (hp : inB w h d p) :
    q ∈ nbrList w h d p ↔ touches p q ∧ inB w h d q := by
  obtain ⟨px, py, pz⟩ := p
  obtain ⟨qx, qy, qz⟩ := q
  obtain ⟨hx, hy, hz⟩ := hp
  simp only [nbrList, List.mem_flatMap, List.mem_map]
  constructor
  · rintro ⟨zp, hzp, yp, hyp, xp, hxp, heq⟩
    obtain ⟨rfl, rfl, rfl⟩ : xp = qx ∧ yp = qy ∧ zp = qz := by
      rw [Prod.mk.injEq, Prod.mk.injEq] at heq
      exact ⟨heq.1, heq.2.1, heq.2.2⟩
    rw [mem_xCands hx] at hxp
    rw [mem_yCands hy] at hyp
    rw [mem_zCands hz] at hzp
    exact ⟨⟨hxp.1, hyp.1, hzp.1⟩, hxp.2, hyp.2, hzp.2⟩
  · rintro ⟨⟨tx, ty, tz⟩, bx, hby, bz⟩
    exact ⟨qz, (mem_zCands hz).mpr ⟨tz, bz⟩, qy, (mem_yCands hy).mpr ⟨ty, hby⟩,
      qx, (mem_xCands hx).mpr ⟨tx, bx⟩, rfl⟩

theorem tryPush_getVox {w h d : Nat} {st : St} {q r : Coord} (hq : inB w h d q)
    (hr : inB w h d r) (hlen : st.g.length = w * h * d) :
    getVox w h (tryPush w h st q).g r =
      if r = q ∧ getVox w h st.g r = 2 then 255 else getVox w h st.g r := by
  unfold tryPush
  by_cases hrq : r = q
  · subst hrq
    by_cases hv : getVox w h st.g r = 2
    · rw [if_pos hv]
      show getVox w h (setVox w h st.g r 255) r = _
      rw [getVox_setVox_self hr hlen, if_pos ⟨rfl, hv⟩]
    · rw [if_neg hv, if_neg (fun hc => hv hc.2)]
  · by_cases hv : getVox w h st.g q = 2
    · rw [if_pos hv]
      show getVox w h (setVox w h st.g q 255) r = _
      rw [getVox_setVox_ne hq hr (fun he => hrq he.symm), if_neg (fun hc => hrq hc.1)]
    · rw [if_neg hv, if_neg (fun hc => hrq hc.1)]

theorem tryPush_wl_mem {w h : Nat} {st : St} {q r : Coord} :
    (r ∈ (tryPush w h st q).wl ↔ r ∈ st.wl ∨ (r = q ∧ getVox w h st.g q = 2)) := by
  unfold tryPush
  by_cases hv : getVox w h st.g q = 2
  · rw [if_pos hv]
    show r ∈ q :: st.wl ↔ _
    rw [List.mem_cons]
    constructor
    · rintro (h | h)
      · exact Or.inr ⟨h, hv⟩
      · exact Or.inl h
    · rintro (h | h)
      · exact Or.inr h
      · exact Or.inl h.1
  · rw [if_neg hv]
    constructor
    · exact Or.inl
    · rintro (h | h)
      · exact h
      · exact absurd h.2 hv

theorem pushAll_getVox {w h d : Nat} :
    ∀ (L : List Coord) (st : St) (r : Coord), (∀ q ∈ L, inB w h d q) → inB w h d r →
    st.g.length = w * h * d →
    getVox w h (pushAll w h L st).g r =
      if r ∈ L ∧ getVox w h st.g r = 2 then 255 else getVox w h st.g r := by
  intro L
  induction L with
  | nil =>
    intro st r _ _ _
    rw [if_neg (fun hc => List.not_mem_nil r hc.1)]
    rfl
  | cons q L ih =>
    intro st r hL hr hlen
    have hq := hL q (List.mem_cons_self q L)
    have hlen1 : (tryPush w h st q).g.length = w * h * d := by
      rw [tryPush_g_length]; exact hlen
    show getVox w h (pushAll w h L (tryPush w h st q)).g r = _
    rw [ih (tryPush w h st q) r (fun a ha => hL a (List.mem_cons_of_mem q ha)) hr hlen1]
    by_cases hrq : r = q
    · by_cases hv : getVox w h st.g r = 2
      · have hval : getVox w h (tryPush w h st q).g r = 255 := by
          rw [tryPush_getVox hq hr hlen, if_pos ⟨hrq, hv⟩]
        rw [hval, if_neg (fun hc => absurd hc.2 (by omega)),
          if_pos ⟨by rw [hrq]; exact List.mem_cons_self q L, hv⟩]
      · have hval : getVox w h (tryPush w h st q).g r = getVox w h st.g r := by
          rw [tryPush_getVox hq hr hlen, if_neg (fun hc => hv hc.2)]
        rw [hval, if_neg (fun hc => hv hc.2), if_neg (fun hc => hv hc.2)]
    · have hval : getVox w h (tryPush w h st q).g r = getVox w h st.g r := by
        rw [tryPush_getVox hq hr hlen, if_neg (fun hc => hrq hc.1)]
      rw [hval]
      by_cases hmem : r ∈ L ∧ getVox w h st.g r = 2
      · rw [if_pos hmem, if_pos ⟨List.mem_cons_of_mem q hmem.1, hmem.2⟩]
      · rw [if_neg hmem,
          if_neg (fun hc => hmem ⟨(List.mem_cons.mp hc.1).resolve_left hrq, hc.2⟩)]

theorem pushAll_wl_mem {w h d : Nat} :
    ∀ (L : List Coord) (st : St) (r : Coord), (∀ q ∈ L, inB w h d q) →
    st.g.length = w * h * d →
    (r ∈ (pushAll w h L st).wl ↔ r ∈ st.wl ∨ (r ∈ L ∧ getVox w h st.g r = 2)) := by
  intro L
  induction L with
  | nil =>
    intro st r _ _
    simp [pushAll]
  | cons q L ih =>
    intro st r hL hlen
    have hq := hL q (List.mem_cons_self q L)
    have hlen1 : (tryPush w h st q).g.length = w * h * d := by
      rw [tryPush_g_length]; exact hlen
    show r ∈ (pushAll w h L (tryPush w h st q)).wl ↔ _
    rw [ih (tryPush w h st q) r (fun a ha => hL a (List.mem_cons_of_mem q ha)) hlen1]
    rw [tryPush_wl_mem]
    by_cases hrq : r = q
    · have hr : inB w h d r := by rw [hrq]; exact hq
      by_cases hv : getVox w h st.g r = 2
      · have hval : getVox w h (tryPush w h st q).g r = 255 := by
          rw [tryPush_getVox hq hr hlen, if_pos ⟨hrq, hv⟩]
        constructor
        · rintro ((hm | hm) | ⟨hm, hc⟩)
          · exact Or.inl hm
          · exact Or.inr ⟨by rw [hrq]; exact List.mem_cons_self q L, hv⟩
          · rw [hval] at hc
            exact absurd hc (by omega)
        · rintro (hm | ⟨hm, hc⟩)
          · exact Or.inl (Or.inl hm)
          · exact Or.inl (Or.inr ⟨hrq, by rw [← hrq]; exact hv⟩)
      · have hval : getVox w h (tryPush w h st q).g r = getVox w h st.g r := by
          rw [tryPush_getVox hq hr hlen, if_neg (fun hc => hv hc.2)]
        constructor
        · rintro ((hm | hm) | ⟨hm, hc⟩)
          · exact Or.inl hm
          · exact absurd (by rw [hrq]; exact hm.2) hv
          · rw [hval] at hc
            exact absurd hc hv
        · rintro (hm | ⟨hm, hc⟩)
          · exact Or.inl (Or.inl hm)
          · exact absurd hc hv
    · by_cases hrL : r ∈ L
      · have hrB : inB w h d r := hL r (List.mem_cons_of_mem q hrL)
        have hval : getVox w h (tryPush w h st q).g r = getVox w h st.g r := by
          rw [tryPush_getVox hq hrB hlen, if_neg (fun hc => hrq hc.1)]
        constructor
        · rintro ((hm | hm) | ⟨hm, hc⟩)
          · exact Or.inl hm
          · exact absurd hm.1 hrq
          · rw [hval] at hc
            exact Or.inr ⟨List.mem_cons_of_mem q hm, hc⟩
        · rintro (hm | ⟨hm, hc⟩)
          · exact Or.inl (Or.inl hm)
          · rcases List.mem_cons.mp hm with he | hm2
            · exact absurd he hrq
            · exact Or.inr ⟨hm2, by rw [hval]; exact hc⟩
      · constructor
        · rintro ((hm | hm) | ⟨hm, hc⟩)
          · exact Or.inl hm
          · exact absurd hm.1 hrq
          · exact absurd hm hrL
        · rintro (hm | ⟨hm, hc⟩)
          · exact Or.inl (Or.inl hm)
          · rcases List.mem_cons.mp hm with he | hm2
            · exact absurd he hrq
            · exact absurd hm2 hrL
theorem fillReach_inB {w h d : Nat} {g : List Nat} {wl : List Coord}
    (hwl : ∀ r ∈ wl, inB w h d r) : ∀ q, FillReach w h d g wl q → inB w h d q := by
  intro q hq
  induction hq with
  | base p hp => exact hwl p hp
  | step p q hp ht hqB hv ih => exact hqB

theorem tryPush_wlinv {w h d : Nat} {st : St} {q : Coord} (hq : inB w h d q)
    (hlen : st.g.length = w * h * d) (hi : WlInv w h d st) :
    WlInv w h d (tryPush w h st q) := by
  obtain ⟨hnd, hmem⟩ := hi
  unfold tryPush
  by_cases hv : getVox w h st.g q = 2
  · rw [if_pos hv]
    constructor
    · show (q :: st.wl).Nodup
      rw [List.nodup_cons]
      refine ⟨fun hqw => ?_, hnd⟩
      have := (hmem q hqw).2
      omega
    · intro r hr
      rw [List.mem_cons] at hr
      rcases hr with hr | hr
      · subst hr
        exact ⟨hq, by rw [getVox_setVox_self hq hlen]⟩
      · obtain ⟨hrB, hr255⟩ := hmem r hr
        refine ⟨hrB, ?_⟩
        rw [getVox_setVox_ne hq hrB (fun he => by rw [he] at hv; omega)]
        exact hr255
  · rw [if_neg hv]
    exact ⟨hnd, hmem⟩

theorem pushAll_wlinv {w h d : Nat} :
    ∀ (L : List Coord) (st : St), (∀ q ∈ L, inB w h d q) →
    st.g.length = w * h * d → WlInv w h d st → WlInv w h d (pushAll w h L st) := by
  intro L
  induction L with
  | nil => intro st _ _ hi; exact hi
  | cons q L ih =>
    intro st hL hlen hi
    exact ih (tryPush w h st q) (fun a ha => hL a (List.mem_cons_of_mem q ha))
      (by rw [tryPush_g_length]; exact hlen)
      (tryPush_wlinv (hL q (List.mem_cons_self q L)) hlen hi)

theorem fillReach_transfer {w h d comp : Nat} {g0 : List Nat} {p : Coord}
    {rest : List Coord} (log0 : List Coord) (hcomp2 : comp ≠ 2)
    (hlen : g0.length = w * h * d)
    (hpB : inB w h d p) (hp255 : getVox w h g0 p = 255)
    (hrest : ∀ r ∈ rest, inB w h d r ∧ getVox w h g0 r = 255) :
    ∀ q, FillReach w h d g0 (p :: rest) q ↔
      (q = p ∨ FillReach w h d (seedNbrs w h d p ⟨setVox w h g0 p comp, rest, log0⟩).g
        (seedNbrs w h d p ⟨setVox w h g0 p comp, rest, log0⟩).wl q) := by
  set st1 : St := ⟨setVox w h g0 p comp, rest, log0⟩ with hst1
  have hlen1 : st1.g.length = w * h * d := by
    show (setVox w h g0 p comp).length = _
    rw [length_setVox]; exact hlen
  have hnbr : ∀ a ∈ nbrList w h d p, inB w h d a := fun a ha => ((mem_nbrList hpB).mp ha).2
  have hval : ∀ r : Coord, inB w h d r →
      getVox w h (seedNbrs w h d p st1).g r =
        if r ∈ nbrList w h d p ∧ getVox w h st1.g r = 2 then 255
        else getVox w h st1.g r := by
    intro r hr
    exact pushAll_getVox (nbrList w h d p) st1 r hnbr hr hlen1
  have hwlm : ∀ r : Coord,
      (r ∈ (seedNbrs w h d p st1).wl ↔ r ∈ rest ∨
        (r ∈ nbrList w h d p ∧ getVox w h st1.g r = 2)) := by
    intro r
    exact pushAll_wl_mem (nbrList w h d p) st1 r hnbr hlen1
  have hst1p : getVox w h st1.g p = comp := getVox_setVox_self hpB hlen
  have hst1ne : ∀ r : Coord, inB w h d r → r ≠ p → getVox w h st1.g r = getVox w h g0 r :=
    fun r hr hne => getVox_setVox_ne hpB hr (fun he => hne he.symm)
  intro q
  constructor
  · intro hq
    induction hq with
    | base a ha =>
      rw [List.mem_cons] at ha
      rcases ha with ha | ha
      · exact Or.inl ha
      · exact Or.inr (FillReach.base a ((hwlm a).mpr (Or.inl ha)))
    | step a b ha ht hbB hbv ih =>
      have hbp : b ≠ p := fun he => by rw [he, hp255] at hbv; omega
      have hst1b : getVox w h st1.g b = 2 := by rw [hst1ne b hbB hbp]; exact hbv
      rcases ih with hap |
        har
      · subst hap
        have hbn : b ∈ nbrList w h d a := (mem_nbrList hpB).mpr ⟨ht, hbB⟩
        exact Or.inr (FillReach.base b ((hwlm b).mpr (Or.inr ⟨hbn, hst1b⟩)))
      · by_cases hbA : b ∈ nbrList w h d p ∧ getVox w h st1.g b = 2
        · exact Or.inr (FillReach.base b ((hwlm b).mpr (Or.inr hbA)))
        · have hv2 : getVox w h (seedNbrs w h d p st1).g b = 2 := by
            rw [hval b hbB, if_neg hbA]
            exact hst1b
          exact Or.inr (FillReach.step a b har ht hbB hv2)
  · intro hq
    rcases hq with hq | hq
    · rw [hq]
      exact FillReach.base p (List.mem_cons_self p rest)
    · induction hq with
      | base a ha =>
        rcases (hwlm a).mp ha with ha | ⟨han, hav⟩
        · exact FillReach.base a (List.mem_cons_of_mem p ha)
        · have hap : a ≠ p := fun he => by rw [he, hst1p] at hav; exact hcomp2 hav
          obtain ⟨hta, haB⟩ := (mem_nbrList hpB).mp han
          have hg0a : getVox w h g0 a = 2 := by rw [← hst1ne a haB hap]; exact hav
          exact FillReach.step p a (FillReach.base p (List.mem_cons_self p rest)) hta haB hg0a
      | step a b ha ht hbB hbv ih =>
        have hnA : ¬(b ∈ nbrList w h d p ∧ getVox w h st1.g b = 2) := by
          intro hbA
          rw [hval b hbB, if_pos hbA] at hbv
          omega
        have hst1b : getVox w h st1.g b = 2 := by
          rw [hval b hbB, if_neg hnA] at hbv
          exact hbv
        have hbp : b ≠ p := fun he => by rw [he, hst1p] at hst1b; exact hcomp2 hst1b
        have hg0b : getVox w h g0 b = 2 := by rw [← hst1ne b hbB hbp]; exact hst1b
        exact FillReach.step a b ih ht hbB hg0b
theorem fillGo_correct (w h d comp : Nat) (hcomp2 : comp ≠ 2) :
    ∀ (fuel : Nat) (st : St), st.g.length = w * h * d → WlInv w h d st →
    2 * fgCount st.g + st.wl.length ≤ fuel →
    (fillGo w h d comp fuel st).wl = [] ∧
    (fillGo w h d comp fuel st).g.length = w * h * d ∧
    (∀ q, FillReach w h d st.g st.wl q →
      getVox w h (fillGo w h d comp fuel st).g q = comp) ∧
    (∀ q, inB w h d q → ¬ FillReach w h d st.g st.wl q →
      getVox w h (fillGo w h d comp fuel st).g q = getVox w h st.g q) := by
  intro fuel
  induction fuel with
  | zero =>
    intro st hlen hwi hm
    have hwl : st.wl = [] := List.length_eq_zero.mp (by omega)
    refine ⟨hwl, hlen, ?_, fun q _ _ => rfl⟩
    intro q hq
    exfalso
    induction hq with
    | base a ha => rw [hwl] at ha; exact List.not_mem_nil a ha
    | step a b ha ht hbB hbv ih => exact ih
  | succ fuel ih =>
    intro st hlen hwi hm
    obtain ⟨g0, wl0, log0⟩ := st
    cases wl0 with
    | nil =>
      refine ⟨rfl, hlen, ?_, fun q _ _ => rfl⟩
      intro q hq
      exfalso
      induction hq with
      | base a ha => exact List.not_mem_nil a ha
      | step a b ha ht hbB hbv ih => exact ih
    | cons p rest =>
      obtain ⟨hnd, hmem⟩ := hwi
      have hpB : inB w h d p := (hmem p (List.mem_cons_self p rest)).1
      have hp255 : getVox w h g0 p = 255 := (hmem p (List.mem_cons_self p rest)).2
      have hrest : ∀ r ∈ rest, inB w h d r ∧ getVox w h g0 r = 255 := by
        intro r hr
        exact hmem r (List.mem_cons_of_mem p hr)
      have hlen0 : g0.length = w * h * d := hlen
      set st1 : St := ⟨setVox w h g0 p comp, rest, log0⟩ with hst1def
      have hlen1 : st1.g.length = w * h * d := by
        show (setVox w h g0 p comp).length = _
        rw [length_setVox]; exact hlen0
      have hwi1 : WlInv w h d st1 := by
        constructor
        · exact (List.nodup_cons.mp hnd).2
        · intro r hr
          obtain ⟨hrB, hr255⟩ := hrest r hr
          refine ⟨hrB, ?_⟩
          have hrp : r ≠ p := fun he => (List.nodup_cons.mp hnd).1 (he ▸ hr)
          show getVox w h (setVox w h g0 p comp) r = 255
          rw [getVox_setVox_ne hpB hrB (fun he => hrp he.symm)]
          exact hr255
      have hnbr : ∀ a ∈ nbrList w h d p, inB w h d a :=
        fun a ha => ((mem_nbrList hpB).mp ha).2
      set st2 : St := seedNbrs w h d p st1 with hst2def
      have hlen2 : st2.g.length = w * h * d := by
        show (pushAll w h (nbrList w h d p) st1).g.length = _
        rw [pushAll_g_length]; exact hlen1
      have hwi2 : WlInv w h d st2 := pushAll_wlinv (nbrList w h d p) st1 hnbr hlen1 hwi1
      have hm2 : 2 * fgCount st2.g + st2.wl.length ≤ fuel := by
        have ha : fgCount st1.g ≤ fgCount g0 :=
          fgCount_set_noninc g0 (idx w h p) comp hcomp2
        have hb : 2 * fgCount st2.g + st2.wl.length ≤
            2 * fgCount st1.g + st1.wl.length :=
          pushAll_measure w h (nbrList w h d p) st1
        simp only [List.length_cons] at hm
        have hcw : st1.wl.length = rest.length := rfl
        rw [hcw] at hb
        omega
      have hred : fillGo w h d comp (fuel + 1) ⟨g0, p :: rest, log0⟩ =
          fillGo w h d comp fuel st2 := rfl
      obtain ⟨hc1, hc2, hc3, hc4⟩ := ih st2 hlen2 hwi2 hm2
      have htrans := fillReach_transfer log0 hcomp2 hlen0 hpB hp255 hrest
      have hst1p : getVox w h st1.g p = comp := getVox_setVox_self hpB hlen0
      have hpush : ∀ r : Coord,
          (r ∈ st2.wl ↔ r ∈ rest ∨
            (r ∈ nbrList w h d p ∧ getVox w h st1.g r = 2)) :=
        fun r => pushAll_wl_mem (nbrList w h d p) st1 r hnbr hlen1
      have hval2 : ∀ r : Coord, inB w h d r →
          getVox w h st2.g r =
            if r ∈ nbrList w h d p ∧ getVox w h st1.g r = 2 then 255
            else getVox w h st1.g r :=
        fun r hr => pushAll_getVox (nbrList w h d p) st1 r hnbr hr hlen1
      rw [hred]
      refine ⟨hc1, hc2, ?_, ?_⟩
      · intro q hq
        rcases (htrans q).mp hq with hqp | hq2
        · subst hqp
          by_cases hq2 : FillReach w h d st2.g st2.wl q
          · exact hc3 q hq2
          · rw [hc4 q hpB hq2]
            have hnp : ¬(q ∈ nbrList w h d q ∧ getVox w h st1.g q = 2) := by
              intro hcc
              rw [hst1p] at hcc
              exact hcomp2 hcc.2
            rw [hval2 q hpB, if_neg hnp]
            exact hst1p
        · exact hc3 q hq2
      · intro q hqB hq
        have hqp : q ≠ p := by
          intro he
          apply hq
          rw [he]
          exact FillReach.base p (List.mem_cons_self p rest)
        have hq2 : ¬ FillReach w h d st2.g st2.wl q :=
          fun hc => hq ((htrans q).mpr (Or.inr hc))
        rw [hc4 q hqB hq2]
        have hnp : ¬(q ∈ nbrList w h d p ∧ getVox w h st1.g q = 2) := by
          intro hcc
          exact hq2 (FillReach.base q ((hpush q).mpr (Or.inr hcc)))
        rw [hval2 q hqB, if_neg hnp]
        show getVox w h (setVox w h g0 p comp) q = getVox w h g0 q
        rw [getVox_setVox_ne hpB hqB (fun he => hqp he.symm)]
theorem Reach.src {F : Coord → Prop} {p q : Coord} (h : Reach F p q) : F p := by
  induction h with
  | refl hp => exact hp
  | tail b c hpb ha hc ih => exact ih

theorem Reach.dest {F : Coord → Prop} {p q : Coord} (h : Reach F p q) : F q := by
  induction h with
  | refl hp => exact hp
  | tail b c hpb ha hc ih => exact hc

theorem Reach.joins {F : Coord → Prop} {p q r : Coord} (h1 : Reach F p q)
    (h2 : Reach F q r) : Reach F p r := by
  induction h2 with
  | refl hp => exact h1
  | tail b c hqb ha hc ih => exact Reach.tail p b c ih ha hc

theorem touches_comm {p q : Coord} (h : touches p q) : touches q p := by
  obtain ⟨⟨a1, a2⟩, ⟨b1, b2⟩, ⟨c1, c2⟩⟩ := h
  exact ⟨⟨a2, a1⟩, ⟨b2, b1⟩, ⟨c2, c1⟩⟩

theorem Adj_comm {p q : Coord} (h : Adj p q) : Adj q p :=
  ⟨touches_comm h.1, fun he => h.2 he.symm⟩

theorem Reach.flip {F : Coord → Prop} {p q : Coord} (h : Reach F p q) : Reach F q p := by
  induction h with
  | refl hp => exact Reach.refl _ hp
  | tail b c hpb ha hc ih =>
    exact Reach.joins (Reach.tail c c b (Reach.refl c hc) (Adj_comm ha) hpb.dest) ih

/-- The flood fill from the single freshly seeded start voxel `s` reaches
exactly the voxels connected to `s` through the Foreground of the grid as
it was before seeding. -/
theorem fillReach_eq_reach {w h d : Nat} {g : List Nat} {s : Coord}
    (hlen : g.length = w * h * d) (hsB : inB w h d s) (hs2 : getVox w h g s = 2) :
    ∀ q, FillReach w h d (setVox w h g s 255) [s] q ↔ Reach (FG w h d g) s q := by
  intro q
  constructor
  · intro hq
    induction hq with
    | base a ha =>
      rw [List.mem_singleton] at ha
      subst ha
      exact Reach.refl a ⟨hsB, hs2⟩
    | step a b ha ht hbB hbv ih =>
      have hbs : b ≠ s := by
        intro he
        rw [he, getVox_setVox_self hsB hlen] at hbv
        omega
      have hgb : getVox w h g b = 2 := by
        rw [← getVox_setVox_ne hsB hbB (fun he => hbs he.symm) (v := 255)]
        exact hbv
      by_cases hab : a = b
      · rw [← hab]
        exact ih
      · exact Reach.tail s a b ih ⟨ht, hab⟩ ⟨hbB, hgb⟩
  · intro hq
    induction hq with
    | refl hp => exact FillReach.base s (List.mem_singleton.mpr rfl)
    | tail b c hsb ha hc ih =>
      by_cases hcs : c = s
      · rw [hcs]
        exact FillReach.base s (List.mem_singleton.mpr rfl)
      · have hvc : getVox w h (setVox w h g s 255) c = 2 := by
          rw [getVox_setVox_ne hsB hc.1 (fun he => hcs he.symm)]
          exact hc.2
        exact FillReach.step b c ih ha.1 hc.1 hvc

/-- Summary of one seeded fill as performed by the scanner: voxels
connected to the seed through Foreground become `comp`; every other
in-bounds voxel keeps its value. -/
theorem fill_at_seed (w h d comp : Nat) (hcomp2 : comp ≠ 2) (g : List Nat) (s : Coord)
    (hlen : g.length = w * h * d) (hsB : inB w h d s) (hs2 : getVox w h g s = 2) :
    (fillGo w h d comp (2 * fgCount (setVox w h g s 255) + 1)
      ⟨setVox w h g s 255, [s], [s]⟩).g.length = w * h * d ∧
    (∀ q, Reach (FG w h d g) s q →
      getVox w h (fillGo w h d comp (2 * fgCount (setVox w h g s 255) + 1)
        ⟨setVox w h g s 255, [s], [s]⟩).g q = comp) ∧
    (∀ q, inB w h d q → ¬ Reach (FG w h d g) s q →
      getVox w h (fillGo w h d comp (2 * fgCount (setVox w h g s 255) + 1)
        ⟨setVox w h g s 255, [s], [s]⟩).g q = getVox w h g q) := by
  have hlen1 : (setVox w h g s 255).length = w * h * d := by
    rw [length_setVox]; exact hlen
  have hwi : WlInv w h d ⟨setVox w h g s 255, [s], [s]⟩ := by
    refine ⟨List.nodup_singleton s, ?_⟩
    intro r hr
    rw [List.mem_singleton] at hr
    subst hr
    exact ⟨hsB, getVox_setVox_self hsB hlen⟩
  obtain ⟨hc1, hc2, hc3, hc4⟩ := fillGo_correct w h d comp hcomp2
    (2 * fgCount (setVox w h g s 255) + 1) ⟨setVox w h g s 255, [s], [s]⟩ hlen1 hwi
    (by simp)
  refine ⟨hc2, ?_, ?_⟩
  · intro q hq
    exact hc3 q ((fillReach_eq_reach hlen hsB hs2 q).mpr hq)
  · intro q hqB hq
    have hqs : q ≠ s := by
      intro he
      apply hq
      rw [he]
      exact Reach.refl s ⟨hsB, hs2⟩
    rw [hc4 q hqB (fun hc => hq ((fillReach_eq_reach hlen hsB hs2 q).mp hc))]
    exact getVox_setVox_ne hsB hqB (fun he => hqs he.symm)
/-! ## The scanner on an all-foreground block -/

theorem scanGo_zero (w h d pos comp : Nat) (g : List Nat) :
    scanGo w h d 0 pos comp g = .ok (g, comp) := rfl

theorem scanGo_step (w h d rem pos comp : Nat) (g : List Nat) :
    scanGo w h d (rem + 1) pos comp g =
      (if getVox w h g (pos % w, pos % (w * h) / w, pos / (w * h)) = 2 then
        if 255 ≤ comp + 1 then .error refErrorMsg
        else scanGo w h d rem (pos + 1) (comp + 1)
          (fillGo w h d comp
            (2 * fgCount (setVox w h g (pos % w, pos % (w * h) / w, pos / (w * h)) 255) + 1)
            ⟨setVox w h g (pos % w, pos % (w * h) / w, pos / (w * h)) 255,
              [(pos % w, pos % (w * h) / w, pos / (w * h))],
              [(pos % w, pos % (w * h) / w, pos / (w * h))]⟩).g
      else scanGo w h d rem (pos + 1) comp g) := rfl

theorem getD_replicate (n : Nat) (a : Nat) : ∀ i, i < n →
    (List.replicate n a).getD i 0 = a := by
  induction n with
  | zero => intro i hi; omega
  | succ m ih =>
    intro i hi
    cases i with
    | zero => rfl
    | succ j => exact ih j (by omega)

theorem allfg_reach (w h d : Nat) (g : List Nat)
    (hfg : ∀ p : Coord, inB w h d p → getVox w h g p = 2) (h0 : inB w h d (0, 0, 0)) :
    ∀ q : Coord, inB w h d q → Reach (FG w h d g) (0, 0, 0) q := by
  suffices H : ∀ n : Nat, ∀ q : Coord, q.1 + q.2.1 + q.2.2 = n → inB w h d q →
      Reach (FG w h d g) (0, 0, 0) q by
    intro q hq
    exact H (q.1 + q.2.1 + q.2.2) q rfl hq
  intro n
  induction n using Nat.strong_induction_on with
  | _ n ih =>
    intro q hsum hq
    obtain ⟨x, y, z⟩ := q
    have hsum2 : x + y + z = n := hsum
    obtain ⟨hx, hy, hz⟩ := hq
    have hx2 : x < w := hx
    have hy2 : y < h := hy
    have hz2 : z < d := hz
    by_cases h00 : x = 0 ∧ y = 0 ∧ z = 0
    · obtain ⟨rfl, rfl, rfl⟩ := h00
      exact Reach.refl _ ⟨h0, hfg _ h0⟩
    · have hpos : 0 < n := by omega
      have hqB : inB w h d (x - 1, y - 1, z - 1) :=
        ⟨show x - 1 < w by omega, show y - 1 < h by omega, show z - 1 < d by omega⟩
      have hrec : Reach (FG w h d g) (0, 0, 0) (x - 1, y - 1, z - 1) :=
        ih ((x - 1) + (y - 1) + (z - 1)) (by omega) (x - 1, y - 1, z - 1) rfl hqB
      have ht : touches (x - 1, y - 1, z - 1) (x, y, z) :=
        ⟨⟨show x - 1 ≤ x + 1 by omega, show x ≤ (x - 1) + 1 by omega⟩,
         ⟨show y - 1 ≤ y + 1 by omega, show y ≤ (y - 1) + 1 by omega⟩,
         ⟨show z - 1 ≤ z + 1 by omega, show z ≤ (z - 1) + 1 by omega⟩⟩
      have hne : ((x : Nat) - 1, (y : Nat) - 1, (z : Nat) - 1) ≠
          ((x : Nat), (y : Nat), (z : Nat)) := by
        intro he
        rw [Prod.mk.injEq, Prod.mk.injEq] at he
        omega
      exact Reach.tail _ _ _ hrec ⟨ht, hne⟩ ⟨⟨hx, hy, hz⟩, hfg _ ⟨hx, hy, hz⟩⟩

theorem flatten_replicate4 : ∀ (N : Nat),
    (List.replicate N ([2, 2, 2, 2] : List Nat)).flatten = List.replicate (4 * N) 2 := by
  intro N
  induction N with
  | zero => rfl
  | succ m ih =>
    show ([2, 2, 2, 2] : List Nat) ++ (List.replicate m ([2, 2, 2, 2] : List Nat)).flatten =
      _
    rw [ih, show 4 * (m + 1) = 4 + 4 * m by ring, List.replicate_add]
    rfl

theorem scan_allfg (N : Nat) (hN : 1 ≤ N) :
    scanRun 2 2 N (List.replicate (4 * N) 2) = .ok (List.replicate (4 * N) 3, 4) := by
  have hlen : (List.replicate (4 * N) 2 : List Nat).length = 2 * 2 * N := by
    rw [List.length_replicate]
    try ring
  have h0B : inB 2 2 N ((0 : Nat), (0 : Nat), (0 : Nat)) :=
    ⟨show (0 : Nat) < 2 by omega, show (0 : Nat) < 2 by omega, show 0 < N from hN⟩
  have hfgall : ∀ p : Coord, inB 2 2 N p → getVox 2 2 (List.replicate (4 * N) 2) p = 2 := by
    intro p hp
    unfold getVox
    apply getD_replicate
    have := idx_lt_of_inB hp
    omega
  have htot : 2 * 2 * N = (2 * 2 * N - 1) + 1 := by omega
  unfold scanRun
  rw [congrArg (scanGo 2 2 N) htot, scanGo_step]
  have hp0 : (((0 : Nat)) % 2, ((0 : Nat)) % (2 * 2) / 2, ((0 : Nat)) / (2 * 2)) =
      (((0 : Nat)), ((0 : Nat)), ((0 : Nat))) := rfl
  rw [hp0, if_pos (hfgall _ h0B), if_neg (by omega)]
  obtain ⟨hc2, hc3, hc4⟩ := fill_at_seed 2 2 N 3 (by omega) (List.replicate (4 * N) 2)
    ((0 : Nat), (0 : Nat), (0 : Nat)) hlen h0B (hfgall _ h0B)
  set stg := (fillGo 2 2 N 3
    (2 * fgCount (setVox 2 2 (List.replicate (4 * N) 2) (0, 0, 0) 255) + 1)
    ⟨setVox 2 2 (List.replicate (4 * N) 2) (0, 0, 0) 255, [(0, 0, 0)], [(0, 0, 0)]⟩).g
    with hstg
  have hall3 : ∀ q : Coord, inB 2 2 N q → getVox 2 2 stg q = 3 := by
    intro q hq
    exact hc3 q (allfg_reach 2 2 N (List.replicate (4 * N) 2) hfgall h0B q hq)
  have hgeq : stg = List.replicate (4 * N) 3 := by
    have hl : stg.length = (List.replicate (4 * N) 3 : List Nat).length := by
      rw [hc2, List.length_replicate]
      try ring
    apply List.ext_getElem hl
    intro i h1 h2
    have hi : i < 2 * 2 * N := by rw [← hc2]; exact h1
    have hdec := decode_inB (w := 2) (h := 2) (d := N) hi
    have hidx := decode_idx (w := 2) (h := 2) (d := N) hi
    have hv := hall3 _ hdec
    unfold getVox at hv
    rw [hidx] at hv
    rw [List.getElem_replicate]
    rw [← List.getD_eq_getElem stg 0 h1]
    exact hv
  rw [hgeq]
  have hno3 : ∀ p : Coord, inB 2 2 N p →
      getVox 2 2 (List.replicate (4 * N) 3) p ≠ 2 := by
    intro p hp
    unfold getVox
    rw [getD_replicate _ _ _ (by have := idx_lt_of_inB hp; omega)]
    omega
  rw [scan_nofg 2 2 N (2 * 2 * N - 1) (0 + 1) (3 + 1) (List.replicate (4 * N) 3)
    (by omega) hno3]

/-- Claim C5: after a labeling pass that completes without a capacity
error, the reported component count is the final id counter minus the
starting id 3; on a grid that is one contiguous 2 by 2 by N all-Foreground
block, every voxel receives component id 3, the final counter is 4, and
the session reports `numLabelsFound = 4 - 3 = 1`. -/
theorem block_2x2xN_single_component (N : Nat) (hN : 1 ≤ N) :
    scanRun 2 2 N (List.replicate (4 * N) 2) = .ok (List.replicate (4 * N) 3, 4) ∧
    (loadImagesIntoVolume [Handle.file] ⟨2, 2, 8, List.replicate N [1, 1, 1, 1]⟩ false
      (fun _ => false) none).numLabelsFound = 4 - 3 ∧
    (loadImagesIntoVolume [Handle.file] ⟨2, 2, 8, List.replicate N [1, 1, 1, 1]⟩ false
      (fun _ => false) none).gridAfterLabel = some (List.replicate (4 * N) 3) := by
  have hscan := scan_allfg N hN
  have hfr : List.replicate N ([1, 1, 1, 1] : List Nat) ≠ [] := by
    intro hc
    have hlc := congrArg List.length hc
    rw [List.length_replicate] at hlc
    simp at hlc
    omega
  have hremap : remapPlane (2 * 2) [1, 1, 1, 1] = [2, 2, 2, 2] := by
    rw [remapPlane_eq_map (2 * 2) [1, 1, 1, 1] rfl]
    rfl
  have hpipe := pipeline_nominal [Handle.file] ⟨2, 2, 8, List.replicate N [1, 1, 1, 1]⟩
    false (fun _ => false) none (by simp)
    (by intro f hf; rw [List.mem_singleton] at hf; exact Or.inl hf) rfl
    (by intro hc; cases hc) hfr rfl
  rw [hpipe]
  refine ⟨hscan, ?_, ?_⟩
  · unfold labelAndUpload
    simp only [List.map_replicate, List.length_replicate]
    rw [hremap, flatten_replicate4 N, hscan]
  · unfold labelAndUpload
    simp only [List.map_replicate, List.length_replicate]
    rw [hremap, flatten_replicate4 N, hscan]

/-- Witness for C5 at N = 3: a 2 by 2 by 3 all-foreground block. -/
theorem block_2x2xN_single_component_witness :
    scanRun 2 2 3 (List.replicate (4 * 3) 2) = .ok (List.replicate (4 * 3) 3, 4) ∧
    (loadImagesIntoVolume [Handle.file] ⟨2, 2, 8, List.replicate 3 [1, 1, 1, 1]⟩ false
      (fun _ => false) none).numLabelsFound = 4 - 3 ∧
    (loadImagesIntoVolume [Handle.file] ⟨2, 2, 8, List.replicate 3 [1, 1, 1, 1]⟩ false
      (fun _ => false) none).gridAfterLabel = some (List.replicate (4 * 3) 3) :=
  block_2x2xN_single_component 3 (by omega)
theorem reach_mono {F F' : Coord → Prop} (hFF : ∀ q, F q → F' q) {p q : Coord}
    (h : Reach F p q) : Reach F' p q := by
  induction h with
  | refl hp => exact Reach.refl _ (hFF _ hp)
  | tail b c hpb ha hc ih => exact Reach.tail _ b c ih ha (hFF _ hc)

theorem seedFor_unique {w h d : Nat} {g0 g1 : List Nat} {n : Nat} {s s' : Coord}
    (hs : SeedFor w h d g0 g1 n s) (hs' : SeedFor w h d g0 g1 n s') : s = s' := by
  have hlabs : Lab w h d g0 g1 n s := (hs.2.1 s).mpr (Reach.refl s hs.1)
  have hlabs' : Lab w h d g0 g1 n s' := (hs'.2.1 s').mpr (Reach.refl s' hs'.1)
  have h1 : Reach (FG w h d g0) s s' := (hs.2.1 s').mp hlabs'
  have h2 : Reach (FG w h d g0) s' s := (hs'.2.1 s).mp hlabs
  have hle1 := hs.2.2 s' h1
  have hle2 := hs'.2.2 s h2
  exact idx_inj hs.1.1 hs'.1.1 (by omega)

theorem fg_sub_of_inv {w h d pos comp : Nat} {g0 g : List Nat}
    (hInv : ScanInv w h d g0 pos comp g) :
    ∀ q, FG w h d g q → FG w h d g0 q := by
  intro q hq
  refine ⟨hq.1, ?_⟩
  by_contra hc
  have heq := hInv.unlab q hq.1 hc
  have hq2 := hq.2
  rw [heq] at hq2
  exact hc hq2

theorem reach_fg_eq {w h d pos comp : Nat} {g0 g : List Nat}
    (hInv : ScanInv w h d g0 pos comp g) {p : Coord} (hpB : inB w h d p)
    (hgp : getVox w h g p = 2) :
    ∀ q, Reach (FG w h d g) p q ↔ Reach (FG w h d g0) p q := by
  intro q
  constructor
  · exact reach_mono (fg_sub_of_inv hInv)
  · intro hq
    induction hq with
    | refl hp => exact Reach.refl p ⟨hpB, hgp⟩
    | tail b c hpb ha hc ih =>
      have hpc : Reach (FG w h d g0) p c :=
        Reach.tail p b c hpb ha hc
      have hfc : FG w h d g c := by
        refine ⟨hc.1, ?_⟩
        by_contra hcc
        rcases hInv.fgpart c hc.1 hc.2 with h2 | ⟨h3, h4⟩
        · exact hcc h2
        · obtain ⟨s, hsp, hseed⟩ := hInv.ids (getVox w h g c) h3 h4
          have hlabc : Lab w h d g0 g (getVox w h g c) c := ⟨hc.1, hc.2, rfl⟩
          have hsc : Reach (FG w h d g0) s c := (hseed.2.1 c).mp hlabc
          have hsp2 : Reach (FG w h d g0) s p := Reach.joins hsc (Reach.flip hpc)
          have hlabp : Lab w h d g0 g (getVox w h g c) p := (hseed.2.1 p).mpr hsp2
          have hvp := hlabp.2.2
          rw [hgp] at hvp
          omega
      exact Reach.tail p b c ih ha hfc
theorem scanInv_seed_step (w h d pos comp : Nat) (g0 g : List Nat)
    (hInv : ScanInv w h d g0 pos comp g) (hpos : pos < w * h * d)
    (hcap : comp + 1 < 255)
    (hfg : getVox w h g (pos % w, pos % (w * h) / w, pos / (w * h)) = 2) :
    ScanInv w h d g0 (pos + 1) (comp + 1)
      (fillGo w h d comp
        (2 * fgCount (setVox w h g (pos % w, pos % (w * h) / w, pos / (w * h)) 255) + 1)
        ⟨setVox w h g (pos % w, pos % (w * h) / w, pos / (w * h)) 255,
          [(pos % w, pos % (w * h) / w, pos / (w * h))],
          [(pos % w, pos % (w * h) / w, pos / (w * h))]⟩).g := by
  set p : Coord := (pos % w, pos % (w * h) / w, pos / (w * h)) with hpdef
  have hpB : inB w h d p := decode_inB hpos
  have hpidx : idx w h p = pos := decode_idx hpos
  have hg0p : getVox w h g0 p = 2 := by
    by_contra hc
    have heq := hInv.unlab p hpB hc
    rw [heq] at hfg
    exact hc hfg
  obtain ⟨hflen, hfre, hfun⟩ := fill_at_seed w h d comp (by have := hInv.comp_lb; omega) g p hInv.len hpB hfg
  set g' := (fillGo w h d comp (2 * fgCount (setVox w h g p 255) + 1)
    ⟨setVox w h g p 255, [p], [p]⟩).g with hg'def
  have hre := reach_fg_eq hInv hpB hfg
  have hlab : ∀ q, Reach (FG w h d g0) p q → getVox w h g' q = comp :=
    fun q hq => hfre q ((hre q).mpr hq)
  have hunch : ∀ q, inB w h d q → ¬ Reach (FG w h d g0) p q →
      getVox w h g' q = getVox w h g q :=
    fun q hqB hq => hfun q hqB (fun hc => hq ((hre q).mp hc))
  have hcomp3 : 3 ≤ comp := hInv.comp_lb
  have hlabpres : ∀ n, 3 ≤ n → n < comp → ∀ q,
      (Lab w h d g0 g' n q ↔ Lab w h d g0 g n q) := by
    intro n h3 hn q
    constructor
    · rintro ⟨hqB, hq0, hqv⟩
      refine ⟨hqB, hq0, ?_⟩
      by_cases hq : Reach (FG w h d g0) p q
      · rw [hlab q hq] at hqv
        omega
      · rw [← hunch q hqB hq]
        exact hqv
    · rintro ⟨hqB, hq0, hqv⟩
      refine ⟨hqB, hq0, ?_⟩
      by_cases hq : Reach (FG w h d g0) p q
      · have hfgq : FG w h d g q := ((hre q).mpr hq).dest
        have := hfgq.2
        omega
      · rw [hunch q hqB hq]
        exact hqv
  have hminp : ∀ q, Reach (FG w h d g0) p q → idx w h p ≤ idx w h q := by
    intro q hq
    by_contra hcc
    have hqB : inB w h d q := hq.dest.1
    have hq0 : getVox w h g0 q = 2 := hq.dest.2
    have hqfg : getVox w h g q ≠ 2 :=
      hInv.prefixNoFg q hqB (by omega)
    rcases hInv.fgpart q hqB hq0 with h2 | ⟨h3, h4⟩
    · exact hqfg h2
    · obtain ⟨s, hsidx, hseed⟩ := hInv.ids (getVox w h g q) h3 h4
      have hlabq : Lab w h d g0 g (getVox w h g q) q := ⟨hqB, hq0, rfl⟩
      have hsq : Reach (FG w h d g0) s q := (hseed.2.1 q).mp hlabq
      have hsp : Reach (FG w h d g0) s p := Reach.joins hsq (Reach.flip hq)
      have hlabp : Lab w h d g0 g (getVox w h g q) p := (hseed.2.1 p).mpr hsp
      have hvp := hlabp.2.2
      rw [hfg] at hvp
      omega
  have hseednew : SeedFor w h d g0 g' comp p := by
    refine ⟨⟨hpB, hg0p⟩, ?_, hminp⟩
    intro q
    constructor
    · rintro ⟨hqB, hq0, hqv⟩
      by_contra hq
      rw [hunch q hqB hq] at hqv
      rcases hInv.fgpart q hqB hq0 with h2 | ⟨h3, h4⟩ <;> omega
    · intro hq
      exact ⟨hq.dest.1, hq.dest.2, hlab q hq⟩
  refine {
    len := hflen
    comp_lb := by omega
    comp_ub := hcap
    unlab := ?_
    fgpart := ?_
    ids := ?_
    mins := ?_
    prefixNoFg := ?_ }
  · intro q hqB hq0
    have hnr : ¬ Reach (FG w h d g0) p q := fun hr => hq0 hr.dest.2
    rw [hunch q hqB hnr]
    exact hInv.unlab q hqB hq0
  · intro q hqB hq0
    by_cases hq : Reach (FG w h d g0) p q
    · rw [hlab q hq]
      exact Or.inr ⟨by omega, by omega⟩
    · rw [hunch q hqB hq]
      rcases hInv.fgpart q hqB hq0 with h2 | ⟨h3, h4⟩
      · exact Or.inl h2
      · exact Or.inr ⟨h3, by omega⟩
  · intro n h3 hn
    by_cases hnc : n < comp
    · obtain ⟨s, hsidx, hseed⟩ := hInv.ids n h3 hnc
      exact ⟨s, by omega, hseed.1,
        fun q => (hlabpres n h3 hnc q).trans (hseed.2.1 q), hseed.2.2⟩
    · have hneq : n = comp := by omega
      subst hneq
      exact ⟨p, by omega, hseednew⟩
  · intro n n' s s' h3 hlt hn' hs hs'
    by_cases hnc' : n' < comp
    · have hs2 : SeedFor w h d g0 g n s :=
        ⟨hs.1, fun q => ((hlabpres n h3 (by omega) q).symm.trans (hs.2.1 q)), hs.2.2⟩
      have hs'2 : SeedFor w h d g0 g n' s' :=
        ⟨hs'.1, fun q => ((hlabpres n' (by omega) hnc' q).symm.trans (hs'.2.1 q)), hs'.2.2⟩
      exact hInv.mins n n' s s' h3 hlt hnc' hs2 hs'2
    · have hneq : n' = comp := by omega
      have hs'c : SeedFor w h d g0 g' comp s' := hneq ▸ hs'
      have hsp : s' = p := seedFor_unique hs'c hseednew
      have hnc : n < comp := by omega
      have hs2 : SeedFor w h d g0 g n s :=
        ⟨hs.1, fun q => ((hlabpres n h3 hnc q).symm.trans (hs.2.1 q)), hs.2.2⟩
      obtain ⟨t, htidx, htseed⟩ := hInv.ids n h3 hnc
      have hst : s = t := seedFor_unique hs2 htseed
      rw [hsp, hst, hpidx]
      omega
  · intro q hqB hqidx
    by_cases hqp : idx w h q = pos
    · have hqeq : q = p := idx_inj hqB hpB (by rw [hpidx]; exact hqp)
      rw [hqeq, hlab p (Reach.refl p ⟨hpB, hg0p⟩)]
      omega
    · have hlt : idx w h q < pos := by omega
      by_cases hq : Reach (FG w h d g0) p q
      · rw [hlab q hq]
        omega
      · rw [hunch q hqB hq]
        exact hInv.prefixNoFg q hqB hlt

theorem scanInv_skip_step (w h d pos comp : Nat) (g0 g : List Nat)
    (hInv : ScanInv w h d g0 pos comp g) (hpos : pos < w * h * d)
    (hnfg : getVox w h g (pos % w, pos % (w * h) / w, pos / (w * h)) ≠ 2) :
    ScanInv w h d g0 (pos + 1) comp g := by
  refine {
    len := hInv.len
    comp_lb := hInv.comp_lb
    comp_ub := hInv.comp_ub
    unlab := hInv.unlab
    fgpart := hInv.fgpart
    ids := ?_
    mins := hInv.mins
    prefixNoFg := ?_ }
  · intro n h3 hn
    obtain ⟨s, hsidx, hseed⟩ := hInv.ids n h3 hn
    exact ⟨s, by omega, hseed⟩
  · intro q hqB hqidx
    by_cases hqp : idx w h q = pos
    · have hqeq : q = (pos % w, pos % (w * h) / w, pos / (w * h)) :=
        idx_inj hqB (decode_inB hpos) (by rw [decode_idx hpos]; exact hqp)
      rw [hqeq]
      exact hnfg
    · exact hInv.prefixNoFg q hqB (by omega)

theorem scanGo_inv (w h d : Nat) (g0 : List Nat) :
    ∀ (rem pos comp : Nat) (g g' : List Nat) (c : Nat), pos + rem = w * h * d →
    ScanInv w h d g0 pos comp g → scanGo w h d rem pos comp g = .ok (g', c) →
    ScanInv w h d g0 (w * h * d) c g' := by
  intro rem
  induction rem with
  | zero =>
    intro pos comp g g' c hpr hInv hrun
    rw [scanGo_zero] at hrun
    rw [Except.ok.injEq, Prod.mk.injEq] at hrun
    obtain ⟨h1, h2⟩ := hrun
    subst h1
    subst h2
    have hpos : pos = w * h * d := by omega
    rw [← hpos]
    exact hInv
  | succ rem ih =>
    intro pos comp g g' c hpr hInv hrun
    rw [scanGo_step] at hrun
    by_cases hfg : getVox w h g (pos % w, pos % (w * h) / w, pos / (w * h)) = 2
    · rw [if_pos hfg] at hrun
      by_cases hcap : 255 ≤ comp + 1
      · rw [if_pos hcap] at hrun
        exact Except.noConfusion hrun
      · rw [if_neg hcap] at hrun
        exact ih (pos + 1) (comp + 1) _ g' c (by omega)
          (scanInv_seed_step w h d pos comp g0 g hInv (by omega) (by omega) hfg) hrun
    · rw [if_neg hfg] at hrun
      exact ih (pos + 1) comp g g' c (by omega)
        (scanInv_skip_step w h d pos comp g0 g hInv (by omega) hfg) hrun

/-- Claim C7: when the labeling pass completes without aborting, the final
id counter stays below the Seed sentinel 255 (so no assigned id ever
equals 255), every id actually assigned lies in the interval from 3 up to
the final counter, each such id is assigned to exactly the maximal
26-connected region of Foreground voxels of its discovery seed (the
voxels assigned that id are precisely those mutually reachable from the
seed through Foreground, the 26-neighborhood being the in-bounds part of
the 3 by 3 by 3 box), every Foreground voxel receives an id, and ids are
assigned in strictly increasing order of the scan index of their seeds. -/
theorem component_ids_partition (w h d : Nat) (g0 g' : List Nat) (c : Nat)
    (hlen0 : g0.length = w * h * d) (hscan : scanRun w h d g0 = .ok (g', c)) :
    c < 255 ∧
    (∀ n q, Lab w h d g0 g' n q → 3 ≤ n ∧ n < c) ∧
    (∀ n, 3 ≤ n → n < c → ∃ s, SeedFor w h d g0 g' n s) ∧
    (∀ p, FG w h d g0 p → ∃ n, 3 ≤ n ∧ n < c ∧ getVox w h g' p = n) ∧
    (∀ n n' s s', 3 ≤ n → n < n' → n' < c → SeedFor w h d g0 g' n s →
      SeedFor w h d g0 g' n' s' → idx w h s < idx w h s') := by
  have hInv0 : ScanInv w h d g0 0 3 g0 :=
    { len := hlen0
      comp_lb := by omega
      comp_ub := by omega
      unlab := fun q _ _ => rfl
      fgpart := fun q _ hfg => Or.inl hfg
      ids := by intro n h3 hn; omega
      mins := by intro n n' s s' h3 hlt hn' _ _; omega
      prefixNoFg := by intro q hq hidx; omega }
  have hfin := scanGo_inv w h d g0 (w * h * d) 0 3 g0 g' c (by omega) hInv0 hscan
  have hcov : ∀ p : Coord, FG w h d g0 p →
      ∃ n, 3 ≤ n ∧ n < c ∧ getVox w h g' p = n := by
    intro p hp
    have hne : getVox w h g' p ≠ 2 :=
      hfin.prefixNoFg p hp.1 (idx_lt_of_inB hp.1)
    rcases hfin.fgpart p hp.1 hp.2 with h2 | ⟨h3, h4⟩
    · exact absurd h2 hne
    · exact ⟨getVox w h g' p, h3, h4, rfl⟩
  refine ⟨hfin.comp_ub, ?_, ?_, hcov, ?_⟩
  · intro n q hq
    obtain ⟨m, h3, h4, hm⟩ := hcov q ⟨hq.1, hq.2.1⟩
    have := hq.2.2
    omega
  · intro n h3 hn
    obtain ⟨s, _, hseed⟩ := hfin.ids n h3 hn
    exact ⟨s, hseed⟩
  · exact fun n n' s s' h3 hlt hn' hs hs' => hfin.mins n n' s s' h3 hlt hn' hs hs'
/-- Witness for C7 on a 3 by 1 by 1 grid with two isolated Foreground
voxels: ids 3 and 4 are assigned, the counter ends at 5 below 255, and the
seeds are ordered by scan index. -/
theorem component_ids_partition_witness :
    (5 : Nat) < 255 ∧
    (∀ n q, Lab 3 1 1 [2, 0, 2] [3, 0, 4] n q → 3 ≤ n ∧ n < 5) ∧
    (∀ n, 3 ≤ n → n < 5 → ∃ s, SeedFor 3 1 1 [2, 0, 2] [3, 0, 4] n s) ∧
    (∀ p, FG 3 1 1 [2, 0, 2] p → ∃ n, 3 ≤ n ∧ n < 5 ∧ getVox 3 1 [3, 0, 4] p = n) ∧
    (∀ n n' s s', 3 ≤ n → n < n' → n' < 5 → SeedFor 3 1 1 [2, 0, 2] [3, 0, 4] n s →
      SeedFor 3 1 1 [2, 0, 2] [3, 0, 4] n' s' → idx 3 1 s < idx 3 1 s') :=
  component_ids_partition 3 1 1 [2, 0, 2] [3, 0, 4] 5 rfl rfl
theorem labelAndUpload_error (tiff : Tiff) (prog : List (Nat × Nat)) (v : Option String)
    (msg : String) (hscan : scanRun tiff.width tiff.height tiff.frames.length
      ((tiff.frames.map (remapPlane (tiff.width * tiff.height))).flatten) = .error msg) :
    labelAndUpload tiff prog v =
      { done := true, errors := some msg, warnings := none, numLabelsFound := 0,
        callbackLog := [⟨true, some msg, none, 0⟩], progressLog := prog,
        readStarted := true, gridAfterLabel := none, sinkGrid := none,
        sinkEnded := false } := by
  unfold labelAndUpload
  rw [hscan]

/-- Claim C1 (code bug): when the scan discovers a further Foreground
component with the id counter already at 254 or above (more than 251
components found), the labeling pass aborts with an error — but the only
error text the pass can ever produce is the strict-mode ReferenceError
message of source line 186 (reading the undeclared `tooManyComponents`),
never the too-many-components message of the dead line 187; every load
whose labeling pass errors is marked done and fires the completion
callback exactly once with that error and a component count of 0, with
nothing reaching the volume sink; and on the concrete one-voxel grid with
the counter at 254 the abort branch indeed yields the ReferenceError
message. -/
theorem labelLoader_capacity_referenceError :
    (∀ w h d rem pos comp g,
        getVox w h g (pos % w, pos % (w * h) / w, pos / (w * h)) = 2 → 254 ≤ comp →
        scanGo w h d (rem + 1) pos comp g = .error refErrorMsg) ∧
    (∀ w h d rem pos comp g e,
        scanGo w h d rem pos comp g = .error e → e = refErrorMsg) ∧
    (∀ (files : List Handle) (tiff : Tiff) (hp : Bool) (cs : Nat → Bool)
        (v : Option String) (msg : String), files ≠ [] →
        (∀ f ∈ files, f = Handle.file ∨ f = Handle.fsFileHandle) →
        cs 0 = false → (hp = true → ∀ z, z < tiff.frames.length → cs (z + 1) = false) →
        tiff.frames ≠ [] → tiff.bpp = 8 →
        scanRun tiff.width tiff.height tiff.frames.length
          ((tiff.frames.map (remapPlane (tiff.width * tiff.height))).flatten) =
            .error msg →
        loadImagesIntoVolume files tiff hp cs v =
          { done := true, errors := some msg, warnings := none, numLabelsFound := 0,
            callbackLog := [⟨true, some msg, none, 0⟩],
            progressLog := progressFull hp files.length tiff.frames.length,
            readStarted := true, gridAfterLabel := none, sinkGrid := none,
            sinkEnded := false }) ∧
    refErrorMsg ≠ capacityMsg ∧
    scanGo 1 1 1 1 0 254 [2] = .error refErrorMsg := by
  refine ⟨?_, ?_, ?_, by decide, rfl⟩
  · intro w h d rem pos comp g hfg hcomp
    rw [scanGo_step, if_pos hfg, if_pos (show 255 ≤ comp + 1 by omega)]
  · intro w h d rem
    induction rem with
    | zero =>
      intro pos comp g e he
      rw [scanGo_zero] at he
      exact absurd he (by intro hc; cases hc)
    | succ n ih =>
      intro pos comp g e he
      rw [scanGo_step] at he
      by_cases hfg : getVox w h g (pos % w, pos % (w * h) / w, pos / (w * h)) = 2
      · rw [if_pos hfg] at he
        by_cases hcap : 255 ≤ comp + 1
        · rw [if_pos hcap] at he
          injection he with h2
          exact h2.symm
        · rw [if_neg hcap] at he
          exact ih _ _ _ _ he
      · rw [if_neg hfg] at he
        exact ih _ _ _ _ he
  · intro files tiff hp cs v msg hne hvalid hc0 hcz hfr hbpp hscan
    rw [pipeline_nominal files tiff hp cs v hne hvalid hc0 hcz hfr hbpp]
    exact labelAndUpload_error tiff _ v msg hscan
